import Mathlib

/-!
# jtstring: a UTF-8 string with codepoint indexing (`src/jts.hpp`)

Shallow embedding of `jts_element` (decode one codepoint, step forward and
backward) and of the class `jts` (constructors, assignment, `at`, `set`,
`operator==`, `operator+`, cursors), followed by the theorems about them.

## Memory model

A pointer into a heap block is a byte offset from the start of the block, and
the storage reached from the start of a block is a total function
`Mem = Nat → Nat` from offsets to byte values.  Offsets at or beyond the
allocated size denote the bytes that lie behind the block in the address
space; offsets of a freshly allocated block denote its uninitialised content.
Both are arbitrary: every function that allocates takes the initial content
of the new block as an argument (`fresh`), and the theorems hold for every
such content.  Every allocation has a region of its own.

A block has a size in bytes.  `behind size off n` tells whether an access to
`n` bytes from offset `off` reaches behind a block of `size` bytes.  The
functions that compute the content of memory (`replace_ptr`, `set`) carry an
access out whatever its range; whether a call of the library functions
`memcpy`, `memmove`, `strcpy`, `strcat` made by the source reaches behind the
block it works on is computed next to them, by `replace_ptr_overrun`,
`set_overrun` and the second component of `operator_plus`.

Bytes are natural numbers; every store reduces its value modulo 256.
`size_t` is 64 bit wide: `size_add` and `size_sub` wrap modulo `2 ^ 64`.
A null pointer is `none`.  Loops of the source whose number of iterations
depends on the content of memory (`strlen`, `strcmp`, `utf8len`, `distance`)
take a fuel argument and return `none` when it runs out.
-/

/-- Byte storage reached from a base pointer, indexed by byte offset. -/
abbrev Mem := Nat → Nat

/-- The assignment `m[i] = v` of a value to a `char` or `uint8_t` cell. -/
def Mem.store (m : Mem) (i v : Nat) : Mem :=
  fun k => if k = i then v % 256 else m k

/-- The call `memcpy(dst + d, src + s, n)`: the destination afterwards. -/
def memcpy (dst : Mem) (d : Nat) (src : Mem) (s n : Nat) : Mem :=
  fun k => if d ≤ k ∧ k < d + n then src (s + (k - d)) else dst k

/-- The call `memmove(m + d, m + s, n)` inside one region: every byte moved is
read before any byte is written. -/
def memmove (m : Mem) (d s n : Nat) : Mem :=
  memcpy m d m s n

/-- An access to `n` bytes from offset `off` reaches behind the end of a block
of `size` bytes. -/
def behind (size off n : Nat) : Bool := decide (0 < n ∧ size < off + n)

/-- Modulus of `size_t` arithmetic. -/
def SIZE_MOD : Nat := 18446744073709551616

/-- Addition of two `size_t` values. -/
def size_add (a b : Nat) : Nat := (a + b) % SIZE_MOD

/-- Subtraction of two `size_t` values (wraps around below zero). -/
def size_sub (a b : Nat) : Nat := (a % SIZE_MOD + (SIZE_MOD - b % SIZE_MOD)) % SIZE_MOD

/-- The C library call `strlen(m + p)`: the number of bytes before the first
zero byte at or after offset `p`; `k` counts the bytes already passed. -/
def strlen_from : Nat → Mem → Nat → Nat → Option Nat
  | 0, _, _, _ => none
  | fuel + 1, m, p, k => if m (p + k) = 0 then some k else strlen_from fuel m p (k + 1)

/-- The C library call `strlen(m)`. -/
def strlen (fuel : Nat) (m : Mem) : Option Nat := strlen_from fuel m 0 0

namespace jts_element

/-- Method `jts_element::utf8char` on the element at offset `p` of `m`: the
pair of the value stored through `result` and the returned byte length. -/
def utf8char (m : Mem) (p : Nat) : Nat × Nat :=
  if (m p &&& 0x80) = 0 then
    (m p &&& 0x7f, 1)
  else if (m p &&& 0xe0) = 0xc0 then
    (((m p &&& 0x1f) <<< 6) ||| (m (p + 1) &&& 0x3f), 2)
  else if (m p &&& 0xf0) = 0xe0 then
    (((m p &&& 0x0f) <<< 12) ||| ((m (p + 1) &&& 0x3f) <<< 6) ||| (m (p + 2) &&& 0x3f), 3)
  else
    (((m p &&& 0x07) <<< 18) ||| ((m (p + 1) &&& 0x3f) <<< 12) |||
      ((m (p + 2) &&& 0x3f) <<< 6) ||| (m (p + 3) &&& 0x3f), 4)

/-- Method `jts_element::to_unicode`. -/
def to_unicode (m : Mem) (p : Nat) : Nat := (utf8char m p).1

/-- Method `jts_element::size`. -/
def size (m : Mem) (p : Nat) : Nat := (utf8char m p).2

/-- Method `jts_element::next`: the offset of the following element. -/
def next (m : Mem) (p : Nat) : Nat := p + (utf8char m p).2

/-- Method `jts_element::prev`: step back one byte at a time while the byte
reached is a continuation byte.  `none` when the scan leaves the region at
its start. -/
def prev (m : Mem) : Nat → Option Nat
  | 0 => none
  | p + 1 => if (m p &&& 0xc0) = 0x80 then prev m p else some p

/-- The loop `for (i = 0; i < n; i++) ptr = ptr->next();`. -/
def next_n (m : Mem) : Nat → Nat → Nat
  | 0, p => p
  | n + 1, p => next_n m n (next m p)

/-- The loop `for (i = 0; i > delta; i--) ptr = ptr->prev();` with `n = -delta`. -/
def prev_n (m : Mem) : Nat → Nat → Option Nat
  | 0, p => some p
  | n + 1, p =>
    match prev m p with
    | none => none
    | some q => prev_n m n q

/-- Method `jts_element::traverse`. -/
def traverse (m : Mem) (p : Nat) (delta : Int) : Option Nat :=
  if delta > 0 then some (next_n m delta.toNat p) else prev_n m (-delta).toNat p

/-- The loop of `jts_element::distance`, with `result` as accumulator. -/
def distance_loop : Nat → Mem → Nat → Nat → Int → Option Int
  | 0, _, ptr, other, result => if ptr = other then some result else none
  | fuel + 1, m, ptr, other, result =>
    if ptr = other then some result
    else if other > ptr then distance_loop fuel m (next m ptr) other (result + 1)
    else
      match prev m ptr with
      | none => none
      | some q => distance_loop fuel m q other (result - 1)

/-- Method `jts_element::distance`. -/
def distance (fuel : Nat) (m : Mem) (p other : Nat) : Option Int :=
  distance_loop fuel m p other 0

end jts_element

open jts_element

/-- The class `jts`: its four data members.  `_raw_ptr = none` is the null
pointer. -/
structure jts where
  _raw_ptr : Option Mem
  _length : Nat
  _allocated : Nat
  _raw_length : Nat

namespace jts

/-- Constant `jts::nchar`. -/
def nchar : Nat := 0xffffffff

/-- Constant `jts::npos`. -/
def npos : Nat := 0xffffffff

/-- Content of a local array before anything is stored in it.  No path of the
model reads a cell of a local array that it has not written. -/
def scratch : Mem := fun _ => 0

/-- Method `jts::utf8len`, with `result` as accumulator. -/
def utf8len_loop : Nat → Mem → Nat → Nat → Option Nat
  | 0, _, _, _ => none
  | fuel + 1, m, ptr, result =>
    if to_unicode m ptr ≠ 0 then utf8len_loop fuel m (next m ptr) (result + 1)
    else some result

/-- Method `jts::utf8len`. -/
def utf8len (fuel : Nat) (m : Mem) (ptr : Nat) : Option Nat :=
  utf8len_loop fuel m ptr 0

/-- Method `jts::to_utf8`: the returned length and the content of the buffer
written to (the caller's, or the local `tmp_buffer` for a null `buffer`). -/
def to_utf8 (value : Nat) (buffer : Option Mem) : Nat × Mem :=
  let buffer :=
    match buffer with
    | none => scratch
    | some b => b
  if value < 0x80 then
    (1, buffer.store 0 (value &&& 0x7f))
  else if value < 0x800 then
    (2, (buffer.store 0 (0xc0 ||| (value >>> 6))).store 1 (0x80 ||| (value &&& 0x3f)))
  else if value < 0x10000 then
    (3, ((buffer.store 0 (0xe0 ||| (value >>> 12))).store 1
      (0x80 ||| ((value >>> 6) &&& 0x3f))).store 2 (0x80 ||| (value &&& 0x3f)))
  else if value < 0x200000 then
    (4, (((buffer.store 0 (0xf0 ||| (value >>> 18))).store 1
      (0x80 ||| ((value >>> 12) &&& 0x3f))).store 2
      (0x80 ||| ((value >>> 6) &&& 0x3f))).store 3 (0x80 ||| (value &&& 0x3f)))
  else
    (0, buffer)

/-- Method `jts::replace_ptr`: the members and the content of memory after the
call.  `ptr` is the byte offset of the element in the buffer of the handle
(`ptr - _raw_ptr`), `none` the null pointer; `fresh` is the content of the
block that `new char[new_len + 1]` returns.  A non-null `ptr` always points
into the buffer of the handle, so the buffer is non-null whenever `ptr` is.
The copies are carried out whatever their range; `replace_ptr_overrun` tells
whether one of them reaches behind its block. -/
def replace_ptr (s : jts) (ptr : Option Nat) (value : Nat) (fresh : Mem) : jts :=
  match ptr, s._raw_ptr with
  | some p, some m =>
    let enc := to_utf8 value (some scratch)
    let len := enc.1
    let buffer := enc.2
    let len2 := (utf8char m p).2
    if len2 = len then
      { s with _raw_ptr := some (memcpy m p buffer 0 len) }
    else if len2 > len then
      -- New is shorter than old
      let moved := memmove m (p + len) (p + len2) (size_sub s._raw_length p)
      { s with _raw_ptr := some (memcpy moved p buffer 0 len) }
    else
      -- New is longer than old
      let new_len := size_sub (size_add s._raw_length len) len2
      if size_add new_len 1 > s._allocated then
        let new_ptr := memcpy fresh 0 m 0 s._raw_length
        let moved := memmove new_ptr (p + len) (p + len2) (size_sub s._raw_length p)
        { _raw_ptr := some (memcpy moved p buffer 0 len)
          _length := s._length
          _allocated := size_add new_len 1
          _raw_length := size_add s._raw_length (size_sub len len2) }
      else
        let moved := memmove m (p + len) (p + len2) (size_sub s._raw_length p)
        { _raw_ptr := some (memcpy moved p buffer 0 len)
          _length := s._length
          _allocated := s._allocated
          _raw_length := size_add s._raw_length (size_sub len len2) }
  | _, _ => s

/-- Whether a call of `jts::replace_ptr` reads or writes behind the end of a
block: the decoding of the element at `ptr` and every `memcpy` and `memmove`
of the method, in the order of the source, each against the size of the block
it works on (`_allocated` bytes for the buffer of the handle, `new_len + 1`
bytes for the block returned by `new char[new_len + 1]`). -/
def replace_ptr_overrun (s : jts) (ptr : Option Nat) (value : Nat) : Bool :=
  match ptr, s._raw_ptr with
  | some p, some m =>
    let len := (to_utf8 value (some scratch)).1
    let len2 := (utf8char m p).2
    let count := size_sub s._raw_length p
    behind s._allocated p len2 ||
    if len2 = len then
      behind s._allocated p len
    else if len2 > len then
      -- New is shorter than old
      behind s._allocated (p + len2) count || behind s._allocated (p + len) count ||
        behind s._allocated p len
    else
      -- New is longer than old
      let new_len := size_sub (size_add s._raw_length len) len2
      if size_add new_len 1 > s._allocated then
        behind s._allocated 0 s._raw_length || behind (size_add new_len 1) 0 s._raw_length ||
          behind (size_add new_len 1) (p + len2) count ||
          behind (size_add new_len 1) (p + len) count ||
          behind (size_add new_len 1) p len
      else
        behind s._allocated (p + len2) count || behind s._allocated (p + len) count ||
          behind s._allocated p len
  | _, _ => false

/-- Constructor `jts::jts()`. -/
def mk_default : jts := ⟨none, 0, 0, 0⟩

/-- The C library call `strcpy(dst + d, src)`: copies the bytes of `src` up to
and including its first zero byte. -/
def strcpy (fuel : Nat) (dst : Mem) (d : Nat) (src : Mem) : Option Mem :=
  match strlen fuel src with
  | none => none
  | some n => some (memcpy dst d src 0 (n + 1))

/-- The C library call `strcat(dst, src)`. -/
def strcat (fuel : Nat) (dst : Mem) (src : Mem) : Option Mem :=
  match strlen fuel dst with
  | none => none
  | some d => strcpy fuel dst d src

/-- Constructor `jts::jts(const char *source)`.  `fresh` is the content of the
block returned by `new jts_element[_raw_length + 1]`. -/
def from_cstr (fuel : Nat) (source : Option Mem) (fresh : Mem) : Option jts :=
  match source with
  | none => some ⟨none, 0, 0, 0⟩
  | some src =>
    match strlen fuel src with
    | none => none
    | some raw_length =>
      match strcpy fuel fresh 0 src with
      | none => none
      | some raw =>
        match utf8len fuel raw 0 with
        | none => none
        | some length => some ⟨some raw, length, size_add raw_length 1, raw_length⟩

/-- Constructor `jts::jts(uint32_t unicode)`. -/
def from_unicode (unicode : Nat) (fresh : Mem) : jts :=
  let size := (to_utf8 unicode none).1
  let raw := (to_utf8 unicode (some fresh)).2
  ⟨some (raw.store size 0), 1, size_add size 1, size⟩

/-- Method `jts::length`. -/
def length (s : jts) : Nat := s._length

/-- Method `jts::size`. -/
def size (s : jts) : Nat := s._raw_length

/-- Method `jts::c_str`. -/
def c_str (s : jts) : Option Mem := s._raw_ptr

/-- Method `jts::is_null`. -/
def is_null (s : jts) : Bool := s._raw_ptr.isNone

/-- Method `jts::at`. -/
def «at» (s : jts) (index : Nat) : Nat :=
  match s._raw_ptr with
  | none => nchar
  | some m => if index ≥ s._length then nchar else to_unicode m (next_n m index 0)

/-- Method `jts::operator[]`. -/
def index (s : jts) (i : Nat) : Nat := s.«at» i

/-- Method `jts::set`.  `none` when `ptr->next()` is called on a null pointer
(null handle and `index > 0`). -/
def set (s : jts) (index value : Nat) (fresh : Mem) : Option jts :=
  match s._raw_ptr with
  | none => if index = 0 then some (replace_ptr s none value fresh) else none
  | some m => some (replace_ptr s (some (next_n m index 0)) value fresh)

/-- Whether the call of `replace_ptr` that `jts::set` makes reads or writes
behind the end of a block.  The walk to the element is not checked. -/
def set_overrun (s : jts) (index value : Nat) : Bool :=
  match s._raw_ptr with
  | none => false
  | some m => replace_ptr_overrun s (some (next_n m index 0)) value

/-- Friend `operator+(const jts &lhs, const jts &rhs)`: the handle returned, and
whether `strcpy` or `strcat` writes behind the end of the block of `len` bytes
returned by `new char[len]`.  `fresh_buffer` is the content of that block,
`fresh` that of the buffer of the result.  `none` when an operand is null
(`strcpy` or `strcat` from a null pointer) or the fuel runs out. -/
def operator_plus (fuel : Nat) (lhs rhs : jts) (fresh_buffer fresh : Mem) :
    Option (jts × Bool) :=
  let len := size_add lhs._raw_length rhs._raw_length
  match lhs.c_str, rhs.c_str with
  | some l, some r =>
    match strlen fuel l, strcpy fuel fresh_buffer 0 l with
    | some n1, some b1 =>
      match strlen fuel b1, strlen fuel r, strcat fuel b1 r with
      | some d, some n2, some b2 =>
        match from_cstr fuel (some b2) fresh with
        | none => none
        | some result => some (result, behind len 0 (n1 + 1) || behind len d (n2 + 1))
      | _, _, _ => none
    | _, _ => none
  | _, _ => none

/-- The struct `jts::iterator`: `_ptr` is the region pointed into together
with the byte offset in it, `none` the null pointer. -/
structure iterator where
  _ptr : Option (Mem × Nat)

/-- Method `jts::begin`. -/
def begin (s : jts) : iterator := ⟨s._raw_ptr.map fun m => (m, 0)⟩

/-- Method `jts::end`. -/
def «end» (s : jts) : iterator := ⟨s._raw_ptr.map fun m => (m, s._raw_length)⟩

/-- Conversion of a `ptrdiff_t` to `int`. -/
def to_int (x : Int) : Int := (x + 2147483648) % 4294967296 - 2147483648

namespace iterator

/-- The operator `*` of a cursor followed by the conversion of the
element to `int`; `none` when `out_of_range` is thrown. -/
def deref (it : iterator) : Option Nat :=
  match it._ptr with
  | none => none
  | some (m, p) => some (to_unicode m p)

/-- The operator `++` of a cursor. -/
def inc (it : iterator) : iterator :=
  match it._ptr with
  | none => it
  | some (m, p) => ⟨some (m, next m p)⟩

/-- The operator `--` of a cursor; `none` when `prev` leaves the region. -/
def dec (it : iterator) : Option iterator :=
  match it._ptr with
  | none => some it
  | some (m, p) =>
    match prev m p with
    | none => none
    | some q => some ⟨some (m, q)⟩

/-- The operator `+` of a cursor and a `difference_type`; `none` when `prev`
leaves the region. -/
def plus (it : iterator) (other : Int) : Option iterator :=
  match it._ptr with
  | none => some it
  | some (m, p) =>
    match jts_element.traverse m p (to_int other) with
    | none => none
    | some q => some ⟨some (m, q)⟩

/-- The operator `-` of two cursors into the same region: `-_ptr->distance(other._ptr)`.
A null `other` is below every offset, so the loop of `distance` steps
backwards until it leaves the region. -/
def minus (fuel : Nat) (it other : iterator) : Option Int :=
  match it._ptr with
  | none => some 0
  | some (m, p) =>
    match other._ptr with
    | none => none
    | some (_, q) =>
      match distance fuel m p q with
      | none => none
      | some d => some (-d)

/-- The cursor after `n` applications of `++`. -/
def inc_n : Nat → iterator → iterator
  | 0, it => it
  | n + 1, it => inc_n n (inc it)

end iterator

/-- Bytes that `to_utf8` writes for the codepoint `c`. -/
def encode (c : Nat) : List Nat :=
  (List.range (to_utf8 c none).1).map (to_utf8 c none).2

/-- Concatenation of the encodings of a list of codepoints. -/
def utf8_bytes : List Nat → List Nat
  | [] => []
  | c :: cs => encode c ++ utf8_bytes cs

/-- A C string: the bytes of the list, then zero bytes. -/
def cstr (bytes : List Nat) : Mem := fun k => bytes.getD k 0

/-- Codepoints of a valid byte sequence: each one is in `1 .. 0x1FFFFF`. -/
def valid (cps : List Nat) : Prop := ∀ c ∈ cps, 1 ≤ c ∧ c < 0x200000

instance (cps : List Nat) : Decidable (valid cps) := by
  unfold valid; infer_instance

/-- The C library call `strcmp(a, b)` from offset `k` on, bytes read as
`unsigned char`: the difference of the first two bytes that differ, 0 when
both strings end before any differ. -/
def strcmp_from : Nat → Mem → Mem → Nat → Option Int
  | 0, _, _, _ => none
  | fuel + 1, a, b, k =>
    if a k ≠ b k then some ((a k : Int) - (b k : Int))
    else if a k = 0 then some 0
    else strcmp_from fuel a b (k + 1)

/-- The C library call `strcmp(a, b)`. -/
def strcmp (fuel : Nat) (a b : Mem) : Option Int := strcmp_from fuel a b 0

/-- Constructor `jts::jts(const string &source)`.  `source` is the content of
the `std::string`; `source.c_str()` is that content followed by a zero byte. -/
def from_string (fuel : Nat) (source : List Nat) (fresh : Mem) : Option jts :=
  match strcpy fuel fresh 0 (cstr source) with
  | none => none
  | some raw =>
    match utf8len fuel raw 0 with
    | none => none
    | some length => some ⟨some raw, length, size_add source.length 1, source.length⟩

/-- Method `jts::operator==(const jts &str)`. -/
def operator_eq (fuel : Nat) (self str : jts) : Option Bool :=
  match self._raw_ptr, str._raw_ptr with
  | none, none => some true
  | none, some _ => some false
  | some _, none => some false
  | some a, some b =>
    match strcmp fuel a b with
    | none => none
    | some r => some (decide (r = 0))

/-- Method `jts::operator=(const jts &str)` on the handle `_self`, for `str`
an object other than `*this`; the old buffer is released and none of the old
members is read.  `none` when `str` is null (`strcpy` from a null pointer). -/
def operator_assign (fuel : Nat) (_self str : jts) (fresh : Mem) : Option jts :=
  let len := str.length
  match str.c_str with
  | none => none
  | some src =>
    match strcpy fuel fresh 0 src with
    | none => none
    | some raw => some ⟨some raw, str.length, size_add len 1, len⟩

/-- Method `jts::operator=(const char *str)` on the handle `_self`. -/
def operator_assign_cstr (fuel : Nat) (_self : jts) (str : Option Mem) (fresh : Mem) :
    Option jts :=
  match str with
  | none => some ⟨none, 0, 0, 0⟩
  | some src =>
    match strlen fuel src with
    | none => none
    | some len =>
      match strcpy fuel fresh 0 src with
      | none => none
      | some raw =>
        match utf8len fuel raw 0 with
        | none => none
        | some length => some ⟨some raw, length, size_add len 1, len⟩

/-- Method `jts::operator=(const string &str)` on the handle `_self`. -/
def operator_assign_string (fuel : Nat) (_self : jts) (str : List Nat) (fresh : Mem) :
    Option jts :=
  operator_assign_cstr fuel _self (some (cstr str)) fresh

/-- Handles reachable from a constructor by assignments and `set` calls with
an index below `length()`.  The result of `operator+` is built by the
constructor from a C string.  A `set` step is taken on a buffer whose byte
count is at least 4 below the modulus of `size_t`. -/
inductive reachable : jts → Prop
  | default : reachable mk_default
  | cstr (fuel : Nat) (source : Option Mem) (fresh : Mem) (s : jts) :
      from_cstr fuel source fresh = some s → reachable s
  | string (fuel : Nat) (source : List Nat) (fresh : Mem) (s : jts) :
      from_string fuel source fresh = some s → reachable s
  | unicode (c : Nat) (fresh : Mem) : reachable (from_unicode c fresh)
  | assign (fuel : Nat) (t str : jts) (fresh : Mem) (s : jts) :
      reachable t → reachable str → operator_assign fuel t str fresh = some s → reachable s
  | assign_cstr (fuel : Nat) (t : jts) (str : Option Mem) (fresh : Mem) (s : jts) :
      reachable t → operator_assign_cstr fuel t str fresh = some s → reachable s
  | assign_string (fuel : Nat) (t : jts) (str : List Nat) (fresh : Mem) (s : jts) :
      reachable t → operator_assign_string fuel t str fresh = some s → reachable s
  | set (s : jts) (i c : Nat) (fresh : Mem) (s2 : jts) :
      reachable s → i < s.length → s._raw_length + 4 < SIZE_MOD →
      jts.set s i c fresh = some s2 → reachable s2

end jts

open jts

/-- Region `m` contains the bytes of `l` from offset `p` on. -/
def holds (m : Mem) (p : Nat) (l : List Nat) : Prop :=
  ∀ k, k < l.length → m (p + k) = l.getD k 0

/-- Codepoints that the encoder accepts. -/
def encodable (cps : List Nat) : Prop := ∀ c ∈ cps, c < 0x200000

/-- Byte offset of the codepoint with index `i`. -/
def offset_of (cps : List Nat) (i : Nat) : Nat := (utf8_bytes (cps.take i)).length

/-- Codepoints of the string "héllo". -/
def hello_cps : List Nat := [0x68, 0xE9, 0x6C, 0x6C, 0x6F]

/-- Codepoints of the string "hello". -/
def hello_ascii : List Nat := [0x68, 0x65, 0x6C, 0x6C, 0x6F]

/-- A block whose uninitialised cells all hold `0xAA`. -/
def junk : Mem := fun _ => 0xAA

/-- Codepoints decoded from offset `p` on while the offset is below `n`. -/
def decode_range (m : Mem) (n : Nat) : Nat → Nat → List Nat
  | 0, _ => []
  | fuel + 1, p => if p < n then to_unicode m p :: decode_range m n fuel (next m p) else []

/-- Codepoints decoded from the bytes `[0, n)`; every step passes at least
one byte, so `n` steps are enough. -/
def decoded (m : Mem) (n : Nat) : List Nat := decode_range m n n 0

/-- The invariant of an encoded buffer as the specification words it, for a
non-null handle: `raw_length < allocated`, the byte at `raw_length` is 0, and
decoding the bytes `[0, raw_length)` yields exactly `codepoint_count`
codepoints, none of them zero. -/
def invariant (s : jts) : Bool :=
  match s._raw_ptr with
  | none => false
  | some m =>
    decide (s._raw_length < s._allocated) && decide (m s._raw_length = 0) &&
      decide ((decoded m s._raw_length).length = s._length) &&
      decide (0 ∉ decoded m s._raw_length)

/-! ## Bit patterns of the encoding -/

set_option maxRecDepth 100000 in
theorem lead1_bits : ∀ c < 128, (c &&& 0x80) = 0 ∧ (c &&& 0x7f) = c ∧ (c &&& 0x7f) % 256 = c := by
  decide

set_option maxRecDepth 100000 in
theorem lead2_bits : ∀ h < 32, ((192 + h) &&& 0x80) ≠ 0 ∧ ((192 + h) &&& 0xe0) = 0xc0 ∧
    ((192 + h) &&& 0x1f) = h ∧ (0xc0 ||| h) % 256 = 192 + h := by
  decide

set_option maxRecDepth 100000 in
theorem lead3_bits : ∀ h < 16, ((224 + h) &&& 0x80) ≠ 0 ∧ ((224 + h) &&& 0xe0) ≠ 0xc0 ∧
    ((224 + h) &&& 0xf0) = 0xe0 ∧ ((224 + h) &&& 0x0f) = h ∧ (0xe0 ||| h) % 256 = 224 + h := by
  decide

set_option maxRecDepth 100000 in
theorem lead4_bits : ∀ h < 8, ((240 + h) &&& 0x80) ≠ 0 ∧ ((240 + h) &&& 0xe0) ≠ 0xc0 ∧
    ((240 + h) &&& 0xf0) ≠ 0xe0 ∧ ((240 + h) &&& 0x07) = h ∧ (0xf0 ||| h) % 256 = 240 + h := by
  decide

set_option maxRecDepth 100000 in
theorem cont_bits : ∀ l < 64, ((128 + l) &&& 0x3f) = l ∧ ((128 + l) &&& 0xc0) = 0x80 ∧
    (0x80 ||| l) % 256 = 128 + l := by
  decide

theorem and_3f (x : Nat) : (x &&& 0x3f) = x % 64 := Nat.and_pow_two_sub_one_eq_mod x 6

theorem shr_6 (x : Nat) : x >>> 6 = x / 64 := Nat.shiftRight_eq_div_pow x 6
theorem shr_12 (x : Nat) : x >>> 12 = x / 4096 := Nat.shiftRight_eq_div_pow x 12
theorem shr_18 (x : Nat) : x >>> 18 = x / 262144 := Nat.shiftRight_eq_div_pow x 18

theorem or_low (k y d : Nat) (hy : 2 ^ k ∣ y) (hd : d < 2 ^ k) : (y ||| d) = y + d := by
  obtain ⟨x, rfl⟩ := hy
  exact (Nat.mul_add_lt_is_or hd x).symm

theorem shl_6 (x : Nat) : x <<< 6 = x * 64 := Nat.shiftLeft_eq x 6
theorem shl_12 (x : Nat) : x <<< 12 = x * 4096 := Nat.shiftLeft_eq x 12
theorem shl_18 (x : Nat) : x <<< 18 = x * 262144 := Nat.shiftLeft_eq x 18

/-- Decoding a two-byte sequence given by its fields. -/
theorem utf8char_two (m : Mem) (p h l : Nat) (hh : h < 32) (hl : l < 64)
    (h0 : m p = 192 + h) (h1 : m (p + 1) = 128 + l) : utf8char m p = (h * 64 + l, 2) := by
  obtain ⟨a1, a2, a3, -⟩ := lead2_bits h hh
  obtain ⟨b1, -, -⟩ := cont_bits l hl
  unfold utf8char
  rw [h0, h1, if_neg a1, if_pos a2, a3, b1, shl_6, or_low 6 _ _ ⟨h, by omega⟩ (by omega)]

theorem utf8char_three (m : Mem) (p h l1 l2 : Nat) (hh : h < 16) (hl1 : l1 < 64) (hl2 : l2 < 64)
    (h0 : m p = 224 + h) (h1 : m (p + 1) = 128 + l1) (h2 : m (p + 2) = 128 + l2) :
    utf8char m p = (h * 4096 + l1 * 64 + l2, 3) := by
  obtain ⟨a1, a2, a3, a4, -⟩ := lead3_bits h hh
  obtain ⟨b1, -, -⟩ := cont_bits l1 hl1
  obtain ⟨c1, -, -⟩ := cont_bits l2 hl2
  unfold utf8char
  rw [h0, h1, h2, if_neg a1, if_neg a2, if_pos a3, a4, b1, c1, shl_6, shl_12,
    or_low 12 (h * 4096) (l1 * 64) ⟨h, by omega⟩ (by omega),
    or_low 6 (h * 4096 + l1 * 64) l2 ⟨h * 64 + l1, by omega⟩ (by omega)]

theorem utf8char_four (m : Mem) (p h l1 l2 l3 : Nat) (hh : h < 8) (hl1 : l1 < 64) (hl2 : l2 < 64)
    (hl3 : l3 < 64) (h0 : m p = 240 + h) (h1 : m (p + 1) = 128 + l1) (h2 : m (p + 2) = 128 + l2)
    (h3 : m (p + 3) = 128 + l3) :
    utf8char m p = (h * 262144 + l1 * 4096 + l2 * 64 + l3, 4) := by
  obtain ⟨a1, a2, a3, a4, -⟩ := lead4_bits h hh
  obtain ⟨b1, -, -⟩ := cont_bits l1 hl1
  obtain ⟨c1, -, -⟩ := cont_bits l2 hl2
  obtain ⟨d1, -, -⟩ := cont_bits l3 hl3
  unfold utf8char
  rw [h0, h1, h2, h3, if_neg a1, if_neg a2, if_neg a3, a4, b1, c1, d1, shl_6, shl_12, shl_18,
    or_low 18 (h * 262144) (l1 * 4096) ⟨h, by omega⟩ (by omega),
    or_low 12 (h * 262144 + l1 * 4096) (l2 * 64) ⟨h * 64 + l1, by omega⟩ (by omega),
    or_low 6 (h * 262144 + l1 * 4096 + l2 * 64) l3 ⟨h * 4096 + l1 * 64 + l2, by omega⟩ (by omega)]

theorem utf8char_one (m : Mem) (p c : Nat) (hc : c < 128) (h0 : m p = c) :
    utf8char m p = (c, 1) := by
  obtain ⟨a1, a2, -⟩ := lead1_bits c hc
  unfold utf8char
  rw [h0, if_pos a1, a2]

/-- The bytes of `encode`, class by class. -/
theorem encode_eq (c : Nat) : encode c =
    if c < 0x80 then [c]
    else if c < 0x800 then [192 + c / 64, 128 + c % 64]
    else if c < 0x10000 then [224 + c / 4096, 128 + c / 64 % 64, 128 + c % 64]
    else if c < 0x200000 then [240 + c / 262144, 128 + c / 4096 % 64, 128 + c / 64 % 64, 128 + c % 64]
    else [] := by
  unfold encode to_utf8
  split_ifs with h1 h2 h3 h4
  · simp [List.range_succ, Mem.store, (lead1_bits c h1).2.2]
  · have e0 := (lead2_bits (c / 64) (by omega)).2.2.2
    have e1 := (cont_bits (c % 64) (by omega)).2.2
    simp [List.range_succ, Mem.store, shr_6, and_3f, e0, e1]
  · have e0 := (lead3_bits (c / 4096) (by omega)).2.2.2.2
    have e1 := (cont_bits (c / 64 % 64) (by omega)).2.2
    have e2 := (cont_bits (c % 64) (by omega)).2.2
    simp [List.range_succ, Mem.store, shr_6, shr_12, and_3f, e0, e1, e2]
  · have e0 := (lead4_bits (c / 262144) (by omega)).2.2.2.2
    have e1 := (cont_bits (c / 4096 % 64) (by omega)).2.2
    have e2 := (cont_bits (c / 64 % 64) (by omega)).2.2
    have e3 := (cont_bits (c % 64) (by omega)).2.2
    simp [List.range_succ, Mem.store, shr_6, shr_12, shr_18, and_3f, e0, e1, e2, e3]
  · simp

/-! ## Regions that contain encoded codepoints -/

theorem holds_append (m : Mem) (p : Nat) (a b : List Nat) :
    holds m p (a ++ b) ↔ holds m p a ∧ holds m (p + a.length) b := by
  constructor
  · intro h
    refine ⟨fun k hk => ?_, fun k hk => ?_⟩
    · rw [h k (by simp; omega), List.getD_append _ _ _ _ hk]
    · have := h (a.length + k) (by simp; omega)
      rw [List.getD_append_right _ _ _ _ (by omega)] at this
      rw [Nat.add_assoc, this]; congr 1; omega
  · rintro ⟨ha, hb⟩ k hk
    by_cases hlt : k < a.length
    · rw [ha k hlt, List.getD_append _ _ _ _ hlt]
    · have := hb (k - a.length) (by simp at hk; omega)
      rw [List.getD_append_right _ _ _ _ (by omega), ← this]; congr 1; omega

theorem encode_length_pos (c : Nat) (h : c < 0x200000) : 1 ≤ (encode c).length := by
  rw [encode_eq]; split_ifs <;> simp

theorem encode_length (c : Nat) (b : Option Mem) : (to_utf8 c b).1 = (encode c).length := by
  unfold encode
  rw [List.length_map, List.length_range]
  unfold to_utf8
  split_ifs <;> rfl

/-- The buffer after `to_utf8`: the encoding in front, the rest untouched. -/
theorem to_utf8_buffer (c : Nat) (b : Mem) (k : Nat) :
    (to_utf8 c (some b)).2 k = if k < (encode c).length then (encode c).getD k 0 else b k := by
  rw [encode_eq]
  unfold to_utf8
  by_cases h1 : c < 0x80
  · have e0 := (lead1_bits c h1).2.2
    rcases k with _ | k <;> simp [h1, Mem.store, e0]
  by_cases h2 : c < 0x800
  · have e0 := (lead2_bits (c / 64) (by omega)).2.2.2
    have e1 := (cont_bits (c % 64) (by omega)).2.2
    rcases k with _ | _ | k <;> simp [h1, h2, Mem.store, shr_6, and_3f, e0, e1]
    rw [if_neg (by omega)]
  by_cases h3 : c < 0x10000
  · have e0 := (lead3_bits (c / 4096) (by omega)).2.2.2.2
    have e1 := (cont_bits (c / 64 % 64) (by omega)).2.2
    have e2 := (cont_bits (c % 64) (by omega)).2.2
    rcases k with _ | _ | _ | k <;> simp [h1, h2, h3, Mem.store, shr_6, shr_12, and_3f, e0, e1, e2]
    rw [if_neg (by omega)]
  by_cases h4 : c < 0x200000
  · have e0 := (lead4_bits (c / 262144) (by omega)).2.2.2.2
    have e1 := (cont_bits (c / 4096 % 64) (by omega)).2.2
    have e2 := (cont_bits (c / 64 % 64) (by omega)).2.2
    have e3 := (cont_bits (c % 64) (by omega)).2.2
    rcases k with _ | _ | _ | _ | k <;>
      simp [h1, h2, h3, h4, Mem.store, shr_6, shr_12, shr_18, and_3f, e0, e1, e2, e3]
    rw [if_neg (by omega)]
  · simp [h1, h2, h3, h4]

theorem to_utf8_holds (c : Nat) (b : Mem) : holds (to_utf8 c (some b)).2 0 (encode c) := by
  intro k hk
  rw [Nat.zero_add, to_utf8_buffer, if_pos hk]

/-- Decoding the bytes of `encode c` gives back `c` and the number of bytes. -/
theorem utf8char_encode (m : Mem) (p c : Nat) (hc : c < 0x200000) (h : holds m p (encode c)) :
    utf8char m p = (c, (encode c).length) := by
  rw [encode_eq] at h ⊢
  split_ifs at h ⊢ with h1 h2 h3
  · have := utf8char_one m p c h1 (by simpa using h 0 (by simp))
    simpa using this
  · have := utf8char_two m p (c / 64) (c % 64) (by omega) (by omega)
      (by simpa using h 0 (by simp)) (by simpa using h 1 (by simp))
    rw [this]; simp; omega
  · have := utf8char_three m p (c / 4096) (c / 64 % 64) (c % 64) (by omega) (by omega) (by omega)
      (by simpa using h 0 (by simp)) (by simpa using h 1 (by simp)) (by simpa using h 2 (by simp))
    rw [this]; simp; omega
  · have := utf8char_four m p (c / 262144) (c / 4096 % 64) (c / 64 % 64) (c % 64)
      (by omega) (by omega) (by omega) (by omega)
      (by simpa using h 0 (by simp)) (by simpa using h 1 (by simp)) (by simpa using h 2 (by simp))
      (by simpa using h 3 (by simp))
    rw [this]; simp; omega

/-- Decoding and stepping over the first codepoint of a region. -/
theorem next_encode (m : Mem) (p c : Nat) (hc : c < 0x200000) (h : holds m p (encode c)) :
    next m p = p + (encode c).length := by
  unfold next; rw [utf8char_encode m p c hc h]

theorem utf8_bytes_append (a b : List Nat) : utf8_bytes (a ++ b) = utf8_bytes a ++ utf8_bytes b := by
  induction a with
  | nil => rfl
  | cons c cs ih => simp [utf8_bytes, ih]

theorem encodable_of_valid {cps : List Nat} (h : valid cps) : encodable cps :=
  fun c hc => (h c hc).2

/-- Stepping `next` once per codepoint of `pre` passes exactly the bytes of `pre`. -/
theorem next_n_bytes (m : Mem) (pre : List Nat) (hpre : encodable pre) :
    ∀ p, holds m p (utf8_bytes pre) → next_n m pre.length p = p + (utf8_bytes pre).length := by
  induction pre with
  | nil => intro p _; rfl
  | cons c cs ih =>
    intro p h
    rw [utf8_bytes, holds_append] at h
    have hc : c < 0x200000 := hpre c (by simp)
    simp only [List.length_cons, next_n, utf8_bytes, List.length_append]
    rw [next_encode m p c hc h.1, ih (fun x hx => hpre x (by simp [hx])) _ h.2]
    omega

theorem split_at (cps : List Nat) (i : Nat) (hi : i < cps.length) :
    cps = cps.take i ++ cps[i] :: cps.drop (i + 1) := by
  rw [List.getElem_cons_drop, List.take_append_drop]

theorem utf8_bytes_split (cps : List Nat) (i : Nat) (hi : i < cps.length) :
    utf8_bytes cps = utf8_bytes (cps.take i) ++ (encode cps[i] ++ utf8_bytes (cps.drop (i + 1))) := by
  conv_lhs => rw [split_at cps i hi]
  rw [utf8_bytes_append, utf8_bytes]

theorem encodable_take {cps : List Nat} (h : encodable cps) (i : Nat) : encodable (cps.take i) :=
  fun c hc => h c (List.mem_of_mem_take hc)

theorem next_n_offset (m : Mem) (cps : List Nat) (hall : encodable cps) (i : Nat)
    (hi : i ≤ cps.length) (h : holds m 0 (utf8_bytes cps)) : next_n m i 0 = offset_of cps i := by
  have h1 : holds m 0 (utf8_bytes (cps.take i)) := by
    rw [← List.take_append_drop i cps, utf8_bytes_append, holds_append] at h
    exact h.1
  have := next_n_bytes m (cps.take i) (encodable_take hall i) 0 h1
  rw [List.length_take, Nat.min_eq_left hi, Nat.zero_add] at this
  exact this

theorem holds_at (m : Mem) (cps : List Nat) (i : Nat) (hi : i < cps.length)
    (h : holds m 0 (utf8_bytes cps)) : holds m (offset_of cps i) (encode cps[i]) := by
  rw [utf8_bytes_split cps i hi, holds_append, holds_append, Nat.zero_add] at h
  exact h.2.1

/-- Walking `i` steps from the start of valid bytes and decoding gives codepoint `i`. -/
theorem to_unicode_next_n (m : Mem) (cps : List Nat) (hall : encodable cps) (i : Nat)
    (hi : i < cps.length) (h : holds m 0 (utf8_bytes cps)) :
    to_unicode m (next_n m i 0) = cps[i] := by
  rw [next_n_offset m cps hall i (by omega) h]
  unfold to_unicode
  rw [utf8char_encode m _ cps[i] (hall _ (List.getElem_mem _)) (holds_at m cps i hi h)]

/-! ## Library calls on regions -/

theorem strlen_from_eq (m : Mem) (p n : Nat) (hz : m (p + n) = 0)
    (hnz : ∀ j, j < n → m (p + j) ≠ 0) :
    ∀ fuel k, k ≤ n → n - k < fuel → strlen_from fuel m p k = some n := by
  intro fuel
  induction fuel with
  | zero => intro k _ hf; omega
  | succ f ih =>
    intro k hk hf
    unfold strlen_from
    by_cases h0 : m (p + k) = 0
    · have : k = n := by
        by_contra hne
        exact hnz k (by omega) h0
      rw [if_pos h0, this]
    · have hne : k ≠ n := fun e => h0 (e ▸ hz)
      rw [if_neg h0]
      exact ih (k + 1) (by omega) (by omega)

/-- Zero-free bytes followed by a zero byte are a C string of that length. -/
theorem strlen_holds (fuel : Nat) (m : Mem) (l : List Nat) (h : holds m 0 (l ++ [0]))
    (hnz : ∀ b ∈ l, b ≠ 0) (hf : l.length < fuel) : strlen fuel m = some l.length := by
  rw [holds_append] at h
  refine strlen_from_eq m 0 l.length ?_ ?_ fuel 0 (by omega) (by omega)
  · simpa using h.2 0 (by simp)
  · intro j hj
    rw [h.1 j hj, List.getD_eq_getElem _ _ hj]
    exact hnz _ (List.getElem_mem _)

theorem holds_cstr (l : List Nat) : holds (cstr l) 0 (l ++ [0]) := by
  intro k hk
  unfold cstr
  by_cases hlt : k < l.length
  · rw [Nat.zero_add, List.getD_append _ _ _ _ hlt]
  · rw [Nat.zero_add, List.getD_eq_default _ _ (by omega), List.getD_append_right _ _ _ _ (by omega)]
    simp at hk
    have : k - l.length = 0 := by omega
    rw [this]; rfl

theorem holds_memcpy (dst src : Mem) (d : Nat) (l : List Nat) (n : Nat) (h : holds src 0 l)
    (hn : l.length ≤ n) : holds (memcpy dst d src 0 n) d l := by
  intro k hk
  unfold memcpy
  rw [if_pos (by omega), ← h k hk]
  congr 1; omega

theorem encode_ne_zero (c : Nat) (h1 : 1 ≤ c) : ∀ b ∈ encode c, b ≠ 0 := by
  rw [encode_eq]
  split_ifs <;> simp
  omega

theorem utf8_bytes_ne_zero (cps : List Nat) (hv : valid cps) : ∀ b ∈ utf8_bytes cps, b ≠ 0 := by
  induction cps with
  | nil => simp [utf8_bytes]
  | cons c cs ih =>
    intro b hb
    rw [utf8_bytes, List.mem_append] at hb
    rcases hb with hb | hb
    · exact encode_ne_zero c (hv c (by simp)).1 b hb
    · exact ih (fun x hx => hv x (by simp [hx])) b hb

theorem utf8len_loop_valid (m : Mem) (cps : List Nat) (hv : valid cps) :
    ∀ p fuel r, holds m p (utf8_bytes cps ++ [0]) → cps.length < fuel →
      utf8len_loop fuel m p r = some (r + cps.length) := by
  induction cps with
  | nil =>
    intro p fuel r h hf
    obtain ⟨f, rfl⟩ : ∃ f, fuel = f + 1 := ⟨fuel - 1, by simp at hf; omega⟩
    have h0 : m p = 0 := by simpa [utf8_bytes] using h 0 (by simp [utf8_bytes])
    unfold utf8len_loop to_unicode
    rw [utf8char_one m p 0 (by omega) h0]
    simp
  | cons c cs ih =>
    intro p fuel r h hf
    obtain ⟨f, rfl⟩ : ∃ f, fuel = f + 1 := ⟨fuel - 1, by simp at hf; omega⟩
    have hc := hv c (by simp)
    rw [utf8_bytes, List.append_assoc, holds_append] at h
    unfold utf8len_loop to_unicode
    rw [utf8char_encode m p c hc.2 h.1, next_encode m p c hc.2 h.1, if_pos (by simp; omega),
      ih (fun x hx => hv x (by simp [hx])) _ f (r + 1) h.2 (by simp at hf; omega)]
    simp; omega

theorem utf8_bytes_length_ge (cps : List Nat) (hall : encodable cps) :
    cps.length ≤ (utf8_bytes cps).length := by
  induction cps with
  | nil => simp
  | cons c cs ih =>
    have := encode_length_pos c (hall c (by simp))
    have := ih (fun x hx => hall x (by simp [hx]))
    simp [utf8_bytes]; omega

theorem size_add_eq (a b : Nat) (h : a + b < SIZE_MOD) : size_add a b = a + b :=
  Nat.mod_eq_of_lt h

theorem size_sub_eq (a b : Nat) (hb : b ≤ a) (ha : a < SIZE_MOD) : size_sub a b = a - b := by
  unfold size_sub SIZE_MOD at *
  omega

/-- The handle that `jts(const char*)` builds from a region that contains the
bytes of valid codepoints followed by a zero byte. -/
theorem from_cstr_holds (cps : List Nat) (fuel : Nat) (src fresh : Mem) (hv : valid cps)
    (hsrc : holds src 0 (utf8_bytes cps ++ [0]))
    (hsz : (utf8_bytes cps).length + 4 < SIZE_MOD) (hf : (utf8_bytes cps).length < fuel) :
    from_cstr fuel (some src) fresh =
      some ⟨some (memcpy fresh 0 src 0 ((utf8_bytes cps).length + 1)),
        cps.length, (utf8_bytes cps).length + 1, (utf8_bytes cps).length⟩ := by
  have hs := strlen_holds fuel _ _ hsrc (utf8_bytes_ne_zero cps hv) hf
  have hm := holds_memcpy fresh src 0 _ ((utf8_bytes cps).length + 1) hsrc (by simp)
  have hl := utf8len_loop_valid _ cps hv 0 fuel 0 hm
    (by have := utf8_bytes_length_ge cps (encodable_of_valid hv); omega)
  have ha := size_add_eq (utf8_bytes cps).length 1 (by unfold SIZE_MOD at *; omega)
  unfold from_cstr strcpy utf8len
  simp only [hs, hl, ha, Nat.zero_add]

/-- The handle that `jts(const char*)` builds from the bytes of valid codepoints. -/
theorem from_cstr_valid (cps : List Nat) (fuel : Nat) (fresh : Mem) (hv : valid cps)
    (hsz : (utf8_bytes cps).length + 4 < SIZE_MOD) (hf : (utf8_bytes cps).length < fuel) :
    from_cstr fuel (some (cstr (utf8_bytes cps))) fresh =
      some ⟨some (memcpy fresh 0 (cstr (utf8_bytes cps)) 0 ((utf8_bytes cps).length + 1)),
        cps.length, (utf8_bytes cps).length + 1, (utf8_bytes cps).length⟩ :=
  from_cstr_holds cps fuel (cstr (utf8_bytes cps)) fresh hv (holds_cstr _) hsz hf

/-! ## Offsets of codepoints -/

theorem offset_of_succ (cps : List Nat) (i : Nat) (hi : i < cps.length) :
    offset_of cps (i + 1) = offset_of cps i + (encode cps[i]).length := by
  unfold offset_of
  rw [List.take_succ, utf8_bytes_append, List.getElem?_eq_getElem hi]
  simp [utf8_bytes]

/-! ## Indexed access -/

theorem at_holds (cps : List Nat) (hall : encodable cps) (m : Mem) (alloc rl j : Nat)
    (hj : j < cps.length) (h : holds m 0 (utf8_bytes cps)) :
    (jts.mk (some m) cps.length alloc rl).«at» j = cps[j] := by
  unfold jts.«at»
  simp only [ge_iff_le, if_neg (Nat.not_le.mpr hj)]
  exact to_unicode_next_n m cps hall j hj h

theorem holds_from_cstr (cps : List Nat) (fresh : Mem) :
    holds (memcpy fresh 0 (cstr (utf8_bytes cps)) 0 ((utf8_bytes cps).length + 1)) 0
      (utf8_bytes cps) := by
  have := holds_memcpy fresh (cstr (utf8_bytes cps)) 0 _ ((utf8_bytes cps).length + 1)
    (holds_cstr (utf8_bytes cps)) (by simp)
  rw [holds_append] at this
  exact this.1

/-! ## Encoder, decoder and out-of-range access -/

set_option maxRecDepth 100000 in
theorem lead4_mask : ∀ h < 8, ((240 + h) &&& 0xf8) = 0xf0 := by
  decide

/-- C1: for every codepoint below `0x200000`, `utf8char` on the bytes that
`to_utf8` wrote returns the codepoint and the length that `to_utf8` returned. -/
theorem utf8_roundtrip (c : Nat) (buffer : Mem) (hc : c < 0x200000) :
    utf8char (to_utf8 c (some buffer)).2 0 = (c, (to_utf8 c (some buffer)).1) := by
  rw [encode_length]
  exact utf8char_encode _ 0 c hc (to_utf8_holds c buffer)

/-- The round trip at the eight boundary codepoints. -/
theorem utf8_roundtrip_witness :
    utf8char (to_utf8 0x0 (some junk)).2 0 = (0x0, (to_utf8 0x0 (some junk)).1) ∧
    utf8char (to_utf8 0x7F (some junk)).2 0 = (0x7F, (to_utf8 0x7F (some junk)).1) ∧
    utf8char (to_utf8 0x80 (some junk)).2 0 = (0x80, (to_utf8 0x80 (some junk)).1) ∧
    utf8char (to_utf8 0x7FF (some junk)).2 0 = (0x7FF, (to_utf8 0x7FF (some junk)).1) ∧
    utf8char (to_utf8 0x800 (some junk)).2 0 = (0x800, (to_utf8 0x800 (some junk)).1) ∧
    utf8char (to_utf8 0xFFFF (some junk)).2 0 = (0xFFFF, (to_utf8 0xFFFF (some junk)).1) ∧
    utf8char (to_utf8 0x10000 (some junk)).2 0 = (0x10000, (to_utf8 0x10000 (some junk)).1) ∧
    utf8char (to_utf8 0x1FFFFF (some junk)).2 0 = (0x1FFFFF, (to_utf8 0x1FFFFF (some junk)).1) :=
  ⟨utf8_roundtrip 0x0 junk (by decide), utf8_roundtrip 0x7F junk (by decide),
    utf8_roundtrip 0x80 junk (by decide), utf8_roundtrip 0x7FF junk (by decide),
    utf8_roundtrip 0x800 junk (by decide), utf8_roundtrip 0xFFFF junk (by decide),
    utf8_roundtrip 0x10000 junk (by decide), utf8_roundtrip 0x1FFFFF junk (by decide)⟩

theorem encode_getD_zero (c : Nat) :
    (c < 0x80 → ((encode c).getD 0 0 &&& 0x80) = 0) ∧
    (0x80 ≤ c → c < 0x800 → ((encode c).getD 0 0 &&& 0xe0) = 0xc0) ∧
    (0x800 ≤ c → c < 0x10000 → ((encode c).getD 0 0 &&& 0xf0) = 0xe0) ∧
    (0x10000 ≤ c → c < 0x200000 → ((encode c).getD 0 0 &&& 0xf8) = 0xf0) := by
  rw [encode_eq]
  refine ⟨fun h => ?_, fun h1 h2 => ?_, fun h1 h2 => ?_, fun h1 h2 => ?_⟩
  · simpa [h] using (lead1_bits c h).1
  · rw [if_neg (by omega), if_pos h2]
    simpa using (lead2_bits (c / 64) (by omega)).2.1
  · rw [if_neg (by omega), if_neg (by omega), if_pos h2]
    simpa using (lead3_bits (c / 4096) (by omega)).2.2.1
  · rw [if_neg (by omega), if_neg (by omega), if_neg (by omega), if_pos h2]
    simpa using lead4_mask (c / 262144) (by omega)

theorem encode_getD_cont (c k : Nat) (h1 : 1 ≤ k) (h2 : k < (encode c).length) :
    ((encode c).getD k 0 &&& 0xc0) = 0x80 := by
  rw [encode_eq] at h2 ⊢
  have c1 := (cont_bits (c % 64) (by omega)).2.1
  have c2 := (cont_bits (c / 64 % 64) (by omega)).2.1
  have c3 := (cont_bits (c / 4096 % 64) (by omega)).2.1
  split_ifs at h2 ⊢ <;> simp at h2
  · omega
  · obtain rfl : k = 1 := by omega
    simpa using c1
  · obtain rfl | rfl : k = 1 ∨ k = 2 := by omega
    · simpa using c2
    · simpa using c1
  · obtain rfl | rfl | rfl : k = 1 ∨ k = 2 ∨ k = 3 := by omega
    · simpa using c3
    · simpa using c2
    · simpa using c1

/-- C2: `to_utf8` returns 1, 2, 3 or 4 by the range of the codepoint and 0
from `0x200000` on, where it leaves the buffer as it was; it changes no byte
from offset `n` on when it returns `n`, the first byte written is the lead
byte of the class and the others have the form `10xxxxxx`. -/
theorem to_utf8_classes (c : Nat) (buffer : Mem) :
    ((to_utf8 c (some buffer)).1 =
      if c < 0x80 then 1 else if c < 0x800 then 2 else if c < 0x10000 then 3
      else if c < 0x200000 then 4 else 0) ∧
    (0x200000 ≤ c → (to_utf8 c (some buffer)).2 = buffer) ∧
    (∀ k, (to_utf8 c (some buffer)).1 ≤ k → (to_utf8 c (some buffer)).2 k = buffer k) ∧
    (c < 0x80 → ((to_utf8 c (some buffer)).2 0 &&& 0x80) = 0) ∧
    (0x80 ≤ c → c < 0x800 → ((to_utf8 c (some buffer)).2 0 &&& 0xe0) = 0xc0) ∧
    (0x800 ≤ c → c < 0x10000 → ((to_utf8 c (some buffer)).2 0 &&& 0xf0) = 0xe0) ∧
    (0x10000 ≤ c → c < 0x200000 → ((to_utf8 c (some buffer)).2 0 &&& 0xf8) = 0xf0) ∧
    (∀ k, 1 ≤ k → k < (to_utf8 c (some buffer)).1 →
      ((to_utf8 c (some buffer)).2 k &&& 0xc0) = 0x80) := by
  have hlen := encode_length c (some buffer)
  have hpos : c < 0x200000 → 0 < (encode c).length := fun h => encode_length_pos c h
  obtain ⟨l1, l2, l3, l4⟩ := encode_getD_zero c
  refine ⟨?_, ?_, ?_, ?_, ?_, ?_, ?_, ?_⟩
  · unfold to_utf8; split_ifs <;> rfl
  · intro h
    unfold to_utf8
    rw [if_neg (by omega), if_neg (by omega), if_neg (by omega), if_neg (by omega)]
  · intro k hk
    rw [to_utf8_buffer, if_neg (by omega)]
  · intro h
    rw [to_utf8_buffer, if_pos (hpos (by omega))]; exact l1 h
  · intro h1 h2
    rw [to_utf8_buffer, if_pos (hpos (by omega))]; exact l2 h1 h2
  · intro h1 h2
    rw [to_utf8_buffer, if_pos (hpos (by omega))]; exact l3 h1 h2
  · intro h1 h2
    rw [to_utf8_buffer, if_pos (hpos (by omega))]; exact l4 h1 h2
  · intro k h1 h2
    rw [hlen] at h2
    rw [to_utf8_buffer, if_pos h2]; exact encode_getD_cont c k h1 h2

/-- C7: `at(i)` and `operator[]` return `0xFFFFFFFF` for every index
`i >= length()`, and for every index at all on a null handle. -/
theorem at_out_of_range (s : jts) (i : Nat) (h : s.length ≤ i ∨ s.is_null = true) :
    s.«at» i = 0xFFFFFFFF ∧ s.index i = 0xFFFFFFFF ∧ nchar = 0xFFFFFFFF := by
  have key : s.«at» i = 0xFFFFFFFF := by
    unfold jts.«at»
    cases hp : s._raw_ptr with
    | none => rfl
    | some m =>
      rcases h with h | h
      · have h2 : i ≥ s._length := h
        simp only []
        rw [if_pos h2]; rfl
      · simp [jts.is_null, hp] at h
  exact ⟨key, key, rfl⟩

/-- Access at index 1 of the handle built from the single codepoint `A`. -/
theorem at_out_of_range_witness :
    (from_unicode 0x41 junk).«at» 1 = 0xFFFFFFFF ∧ (from_unicode 0x41 junk).index 1 = 0xFFFFFFFF ∧
      nchar = 0xFFFFFFFF :=
  at_out_of_range (from_unicode 0x41 junk) 1 (Or.inl (by decide))

/-! ## Size and invariant after a narrowing replacement -/

/-- C4: "héllo" has size 6, and after `set(1, 'e')`, which replaces the
two-byte `é` by a one-byte codepoint, `size()` is still 6: the narrower
branch of `replace_ptr` does not update `_raw_length`. -/
theorem set_narrower_keeps_size :
    (from_cstr 10 (some (cstr (utf8_bytes hello_cps))) junk).map jts.size = some 6 ∧
    (from_cstr 10 (some (cstr (utf8_bytes hello_cps))) junk).bind
      (fun s => (s.set 1 0x65 junk).map jts.size) = some 6 := by
  decide

/-- C5: the handle built from "héllo" satisfies the invariant; after
`set(1, 'e')` (narrower) it does not, and the handle built from "hello" does
not satisfy it after `set(0, 0x1F600)` (wider, reallocating) when the new
block is not zero-filled. -/
theorem set_breaks_invariant :
    (from_cstr 10 (some (cstr (utf8_bytes hello_cps))) junk).map invariant = some true ∧
    (from_cstr 10 (some (cstr (utf8_bytes hello_cps))) junk).bind
      (fun s => (s.set 1 0x65 junk).map invariant) = some false ∧
    (from_cstr 10 (some (cstr (utf8_bytes hello_ascii))) junk).map invariant = some true ∧
    (from_cstr 10 (some (cstr (utf8_bytes hello_ascii))) junk).bind
      (fun s => (s.set 0 0x1F600 junk).map invariant) = some false ∧
    (from_cstr 10 (some (cstr (utf8_bytes hello_cps))) junk).bind
      (fun s => (s.set 1 0x65 junk).bind fun s2 =>
        s2._raw_ptr.map fun m => (s2._length, s2._raw_length, decoded m s2._raw_length)) =
      some (5, 6, [0x68, 0x65, 0x6C, 0x6C, 0x6F, 0]) ∧
    (from_cstr 10 (some (cstr (utf8_bytes hello_ascii))) junk).bind
      (fun s => (s.set 0 0x1F600 junk).bind fun s2 =>
        s2._raw_ptr.map fun m => (s2._raw_length, s2._allocated, m s2._raw_length)) =
      some (8, 9, 0xAA) := by
  decide

/-! ## Cursors -/

theorem inc_n_some (m : Mem) : ∀ n p,
    iterator.inc_n n ⟨some (m, p)⟩ = ⟨some (m, next_n m n p)⟩ := by
  intro n
  induction n with
  | zero => intro p; rfl
  | succ k ih => intro p; simp only [iterator.inc_n, iterator.inc, next_n, ih]

theorem to_int_small (i : Nat) (h : i < 2147483648) : to_int (i : Int) = (i : Int) := by
  unfold to_int; omega

theorem traverse_nat (m : Mem) (p i : Nat) : jts_element.traverse m p (i : Int) = some (next_n m i p) := by
  unfold jts_element.traverse
  by_cases h : (i : Int) > 0
  · rw [if_pos h, Int.toNat_ofNat]
  · have : i = 0 := by omega
    subst this
    simp [prev_n, next_n]

theorem plus_eq (m : Mem) (p : Nat) (x : Int) :
    iterator.plus ⟨some (m, p)⟩ x =
      match jts_element.traverse m p (to_int x) with
      | none => none
      | some q => some ⟨some (m, q)⟩ := rfl

theorem plus_nat (m : Mem) (p i : Nat) (h31 : i < 2147483648) :
    iterator.plus ⟨some (m, p)⟩ (i : Int) = some ⟨some (m, next_n m i p)⟩ := by
  rw [plus_eq, to_int_small i h31, traverse_nat]

theorem begin_some (m : Mem) (n a r : Nat) : (jts.mk (some m) n a r).begin = ⟨some (m, 0)⟩ := rfl

/-- A cursor moved from `begin()` dereferences to what `at` returns, on every
non-null handle. -/
theorem deref_inc_n (s : jts) (m : Mem) (hs : s._raw_ptr = some m) (i : Nat) (hi : i < s._length) :
    (s.begin.inc_n i).deref = some (s.«at» i) ∧
    (i < 2147483648 → ∃ it, s.begin.plus (i : Int) = some it ∧ it.deref = some (s.«at» i)) := by
  have hat : s.«at» i = to_unicode m (next_n m i 0) := by
    unfold jts.«at»
    rw [hs]
    simp only [ge_iff_le, if_neg (Nat.not_le.mpr hi)]
  have hb : s.begin = ⟨some (m, 0)⟩ := by unfold jts.begin; rw [hs]; rfl
  refine ⟨?_, fun h31 => ?_⟩
  · rw [hb, inc_n_some, hat]; rfl
  · refine ⟨⟨some (m, next_n m i 0)⟩, ?_, ?_⟩
    · rw [hb, plus_nat m 0 i h31]
    · rw [hat]; rfl

/-- C9 as amended: on a handle built from the bytes of valid codepoints, the
cursor reached from `begin()` by `i < length()` increments dereferences to the
codepoint `at(i)`, and so does the cursor `begin() + i` when
`i < 2147483648`, the range of the `int` parameter of `traverse`. -/
theorem cursor_deref (cps : List Nat) (fuel : Nat) (fresh : Mem) (hv : valid cps)
    (hsz : (utf8_bytes cps).length + 4 < SIZE_MOD) (hf : (utf8_bytes cps).length < fuel) :
    ∃ s, from_cstr fuel (some (cstr (utf8_bytes cps))) fresh = some s ∧
      s.length = cps.length ∧
      ∀ i, i < s.length →
        (s.begin.inc_n i).deref = some (s.«at» i) ∧
        (i < 2147483648 → ∃ it, s.begin.plus (i : Int) = some it ∧ it.deref = some (s.«at» i)) := by
  refine ⟨_, from_cstr_valid cps fuel fresh hv hsz hf, rfl, ?_⟩
  intro i hi
  exact deref_inc_n _ _ rfl i hi

/-- Cursor dereference on the handle built from "héllo". -/
theorem cursor_deref_witness :
    ∃ s, from_cstr 10 (some (cstr (utf8_bytes hello_cps))) junk = some s ∧
      s.length = hello_cps.length ∧
      ∀ i, i < s.length →
        (s.begin.inc_n i).deref = some (s.«at» i) ∧
        (i < 2147483648 → ∃ it, s.begin.plus (i : Int) = some it ∧ it.deref = some (s.«at» i)) :=
  cursor_deref hello_cps 10 junk (by decide) (by decide) (by decide)

set_option maxRecDepth 100000 in
theorem lead_not_cont : (∀ c < 128, (c &&& 0xc0) ≠ 0x80) ∧ (∀ h < 64, ((192 + h) &&& 0xc0) ≠ 0x80) := by
  decide

theorem prev_cont (m : Mem) (p : Nat) (h : (m p &&& 0xc0) = 0x80) : prev m (p + 1) = prev m p := by
  simp [prev, h]

theorem prev_lead (m : Mem) (p : Nat) (h : (m p &&& 0xc0) ≠ 0x80) : prev m (p + 1) = some p := by
  simp [prev, h]

/-- Scanning back from behind an encoded codepoint stops at its lead byte. -/
theorem prev_encode (m : Mem) (p c : Nat) (hc : c < 0x200000) (h : holds m p (encode c)) :
    prev m (p + (encode c).length) = some p := by
  have c1 := (cont_bits (c % 64) (by omega)).2.1
  have c2 := (cont_bits (c / 64 % 64) (by omega)).2.1
  have c3 := (cont_bits (c / 4096 % 64) (by omega)).2.1
  rw [encode_eq] at h ⊢
  split_ifs at h ⊢ with h1 h2 h3
  · have e0 : m p = c := by simpa using h 0 (by simp)
    exact prev_lead m p (by rw [e0]; exact lead_not_cont.1 c h1)
  · have e0 : m p = 192 + c / 64 := by simpa using h 0 (by simp)
    have e1 : m (p + 1) = 128 + c % 64 := by simpa using h 1 (by simp)
    show prev m (p + 1 + 1) = _
    rw [prev_cont m (p + 1) (by rw [e1]; exact c1)]
    exact prev_lead m p (by rw [e0]; exact lead_not_cont.2 _ (by omega))
  · have e0 : m p = 192 + (32 + c / 4096) := by
      have := h 0 (by simp); simp at this; omega
    have e1 : m (p + 1) = 128 + c / 64 % 64 := by simpa using h 1 (by simp)
    have e2 : m (p + 2) = 128 + c % 64 := by simpa using h 2 (by simp)
    show prev m (p + 2 + 1) = _
    rw [prev_cont m (p + 2) (by rw [e2]; exact c1)]
    show prev m (p + 1 + 1) = _
    rw [prev_cont m (p + 1) (by rw [e1]; exact c2)]
    exact prev_lead m p (by rw [e0]; exact lead_not_cont.2 _ (by omega))
  · have e0 : m p = 192 + (48 + c / 262144) := by
      have := h 0 (by simp); simp at this; omega
    have e1 : m (p + 1) = 128 + c / 4096 % 64 := by simpa using h 1 (by simp)
    have e2 : m (p + 2) = 128 + c / 64 % 64 := by simpa using h 2 (by simp)
    have e3 : m (p + 3) = 128 + c % 64 := by simpa using h 3 (by simp)
    show prev m (p + 3 + 1) = _
    rw [prev_cont m (p + 3) (by rw [e3]; exact c1)]
    show prev m (p + 2 + 1) = _
    rw [prev_cont m (p + 2) (by rw [e2]; exact c2)]
    show prev m (p + 1 + 1) = _
    rw [prev_cont m (p + 1) (by rw [e1]; exact c3)]
    exact prev_lead m p (by rw [e0]; exact lead_not_cont.2 _ (by omega))

theorem next_offset (m : Mem) (cps : List Nat) (hall : encodable cps) (i : Nat)
    (hi : i < cps.length) (h : holds m 0 (utf8_bytes cps)) :
    next m (offset_of cps i) = offset_of cps (i + 1) := by
  rw [next_encode m _ cps[i] (hall _ (List.getElem_mem _)) (holds_at m cps i hi h),
    offset_of_succ cps i hi]

theorem prev_offset (m : Mem) (cps : List Nat) (hall : encodable cps) (i : Nat)
    (hi : i < cps.length) (h : holds m 0 (utf8_bytes cps)) :
    prev m (offset_of cps (i + 1)) = some (offset_of cps i) := by
  rw [offset_of_succ cps i hi]
  exact prev_encode m _ cps[i] (hall _ (List.getElem_mem _)) (holds_at m cps i hi h)

theorem offset_of_lt (cps : List Nat) (hall : encodable cps) (i : Nat) :
    ∀ d, i + d + 1 ≤ cps.length → offset_of cps i < offset_of cps (i + d + 1) := by
  intro d
  induction d with
  | zero =>
    intro hd
    have := encode_length_pos cps[i] (hall _ (List.getElem_mem _))
    rw [offset_of_succ cps i (by omega)]; omega
  | succ k ih =>
    intro hd
    have := ih (by omega)
    rw [show i + (k + 1) + 1 = i + k + 1 + 1 by omega, offset_of_succ cps (i + k + 1) (by omega)]
    omega

theorem distance_forward (m : Mem) (cps : List Nat) (hall : encodable cps)
    (h : holds m 0 (utf8_bytes cps)) :
    ∀ d fuel i (r : Int), i + d ≤ cps.length → d ≤ fuel →
      distance_loop fuel m (offset_of cps i) (offset_of cps (i + d)) r = some (r + d) := by
  intro d
  induction d with
  | zero =>
    intro fuel i r _ _
    cases fuel <;> simp [distance_loop]
  | succ k ih =>
    intro fuel i r hd hf
    obtain ⟨f, rfl⟩ : ∃ f, fuel = f + 1 := ⟨fuel - 1, by omega⟩
    have hlt : offset_of cps i < offset_of cps (i + (k + 1)) := offset_of_lt cps hall i k (by omega)
    unfold distance_loop
    rw [if_neg (by omega), if_pos hlt, next_offset m cps hall i (by omega) h]
    have := ih f (i + 1) (r + 1) (by omega) (by omega)
    rw [show i + 1 + k = i + (k + 1) by omega] at this
    rw [this]; push_cast; congr 1; ring

theorem distance_backward (m : Mem) (cps : List Nat) (hall : encodable cps)
    (h : holds m 0 (utf8_bytes cps)) (i : Nat) :
    ∀ d fuel (r : Int), i + d ≤ cps.length → d ≤ fuel →
      distance_loop fuel m (offset_of cps (i + d)) (offset_of cps i) r = some (r - d) := by
  intro d
  induction d with
  | zero =>
    intro fuel r _ _
    cases fuel <;> simp [distance_loop]
  | succ k ih =>
    intro fuel r hd hf
    obtain ⟨f, rfl⟩ : ∃ f, fuel = f + 1 := ⟨fuel - 1, by omega⟩
    have hlt : offset_of cps i < offset_of cps (i + (k + 1)) := offset_of_lt cps hall i k (by omega)
    unfold distance_loop
    rw [if_neg (by omega), if_neg (by omega)]
    have hp := prev_offset m cps hall (i + k) (by omega) h
    rw [show i + k + 1 = i + (k + 1) by omega] at hp
    simp only [hp]
    rw [ih f (r - 1) (by omega) (by omega)]
    push_cast; congr 1; ring

/-- C10 as amended: on a handle built from the bytes of valid codepoints, the
difference `q - p` of the cursors `j` and `i` steps from `begin()`
(`i, j <= length()`) is computed within `length()` iterations of the loop of
`distance` and is `j - i`; so is `(begin() + i) - begin()` when
`i < 2147483648`, the range of the `int` parameter of `traverse`. -/
theorem cursor_minus (cps : List Nat) (fuel : Nat) (fresh : Mem) (hv : valid cps)
    (hsz : (utf8_bytes cps).length + 4 < SIZE_MOD) (hf : (utf8_bytes cps).length < fuel) :
    ∃ s, from_cstr fuel (some (cstr (utf8_bytes cps))) fresh = some s ∧
      s.length = cps.length ∧
      ∀ i j fuel2, i ≤ s.length → j ≤ s.length → s.length ≤ fuel2 →
        iterator.minus fuel2 (s.begin.inc_n j) (s.begin.inc_n i) = some ((j : Int) - (i : Int)) ∧
        (i < 2147483648 → ∃ it, s.begin.plus (i : Int) = some it ∧
          iterator.minus fuel2 it s.begin = some (i : Int)) := by
  refine ⟨_, from_cstr_valid cps fuel fresh hv hsz hf, rfl, ?_⟩
  intro i j fuel2 hi hj hfuel
  change i ≤ cps.length at hi
  change j ≤ cps.length at hj
  change cps.length ≤ fuel2 at hfuel
  have hall := encodable_of_valid hv
  have hh := holds_from_cstr cps fresh
  generalize memcpy fresh 0 (cstr (utf8_bytes cps)) 0 ((utf8_bytes cps).length + 1) = m at hh ⊢
  have key : ∀ a b, a ≤ cps.length → b ≤ cps.length →
      distance fuel2 m (offset_of cps a) (offset_of cps b) = some ((b : Int) - (a : Int)) := by
    intro a b ha hb
    unfold distance
    rcases Nat.le_total a b with hab | hab
    · obtain ⟨d, rfl⟩ := Nat.exists_eq_add_of_le hab
      rw [distance_forward _ cps hall hh d fuel2 a 0 hb (by omega)]
      push_cast; congr 1; ring
    · obtain ⟨d, rfl⟩ := Nat.exists_eq_add_of_le hab
      rw [distance_backward _ cps hall hh b d fuel2 0 ha (by omega)]
      push_cast; congr 1; ring
  have hinc : ∀ a, a ≤ cps.length →
      (jts.mk (some m) cps.length ((utf8_bytes cps).length + 1) (utf8_bytes cps).length).begin.inc_n a =
        ⟨some (m, offset_of cps a)⟩ := by
    intro a ha
    rw [begin_some, inc_n_some, next_n_offset _ cps hall a ha hh]
  have hminus : ∀ a b, a ≤ cps.length → b ≤ cps.length →
      iterator.minus fuel2 ⟨some (m, offset_of cps a)⟩ ⟨some (m, offset_of cps b)⟩ =
        some ((a : Int) - (b : Int)) := by
    intro a b ha hb
    show (match distance fuel2 m (offset_of cps a) (offset_of cps b) with
      | none => none
      | some d => some (-d)) = _
    rw [key a b ha hb]
    show some (-((b : Int) - (a : Int))) = _
    congr 1; ring
  refine ⟨?_, fun h31 => ?_⟩
  · rw [hinc i hi, hinc j hj]
    exact hminus j i hj hi
  · refine ⟨⟨some (m, offset_of cps i)⟩, ?_, ?_⟩
    · rw [begin_some, plus_nat _ 0 i h31, next_n_offset _ cps hall i hi hh]
    · have h0 := hinc 0 (by omega)
      simp only [iterator.inc_n] at h0
      rw [h0]
      have := hminus i 0 hi (by omega)
      simpa using this

/-- Cursor difference on the handle built from "héllo". -/
theorem cursor_minus_witness :
    ∃ s, from_cstr 10 (some (cstr (utf8_bytes hello_cps))) junk = some s ∧
      s.length = hello_cps.length ∧
      ∀ i j fuel2, i ≤ s.length → j ≤ s.length → s.length ≤ fuel2 →
        iterator.minus fuel2 (s.begin.inc_n j) (s.begin.inc_n i) = some ((j : Int) - (i : Int)) ∧
        (i < 2147483648 → ∃ it, s.begin.plus (i : Int) = some it ∧
          iterator.minus fuel2 it s.begin = some (i : Int)) :=
  cursor_minus hello_cps 10 junk (by decide) (by decide) (by decide)

/-! ## Constructors -/

/-- C11: the handle built from the bytes of valid codepoints `c_0 .. c_{n-1}`
is non-null, its size is the number of bytes, its length is `n`, its capacity
is the size plus one, the byte behind the copied bytes is zero, and `at(i)`
is `c_i` for every `i < n`. -/
theorem from_cstr_spec (cps : List Nat) (fuel : Nat) (fresh : Mem) (hv : valid cps)
    (hsz : (utf8_bytes cps).length + 4 < SIZE_MOD) (hf : (utf8_bytes cps).length < fuel) :
    ∃ s m, from_cstr fuel (some (cstr (utf8_bytes cps))) fresh = some s ∧
      s.is_null = false ∧ s._raw_ptr = some m ∧
      s.size = (utf8_bytes cps).length ∧ s.length = cps.length ∧
      s._allocated = s.size + 1 ∧ m s.size = 0 ∧
      (∀ k, k < s.size → m k = (utf8_bytes cps).getD k 0) ∧
      ∀ i (hi : i < cps.length), s.«at» i = cps[i] := by
  have hm := holds_memcpy fresh (cstr (utf8_bytes cps)) 0 _ ((utf8_bytes cps).length + 1)
    (holds_cstr (utf8_bytes cps)) (by simp)
  rw [holds_append] at hm
  refine ⟨_, _, from_cstr_valid cps fuel fresh hv hsz hf, rfl, rfl, rfl, rfl, rfl, ?_, ?_, ?_⟩
  · simpa using hm.2 0 (by simp)
  · intro k hk
    simpa using hm.1 k hk
  · intro i hi
    exact at_holds cps (encodable_of_valid hv) _ _ _ i hi hm.1

/-- Construction from "héllo": the general statement, and `length() == 5`,
`size() == 6`, `at(1) == 0xE9` by evaluation. -/
theorem from_cstr_spec_witness :
    (∃ s m, from_cstr 10 (some (cstr (utf8_bytes hello_cps))) junk = some s ∧
      s.is_null = false ∧ s._raw_ptr = some m ∧
      s.size = (utf8_bytes hello_cps).length ∧ s.length = hello_cps.length ∧
      s._allocated = s.size + 1 ∧ m s.size = 0 ∧
      (∀ k, k < s.size → m k = (utf8_bytes hello_cps).getD k 0) ∧
      ∀ i (hi : i < hello_cps.length), s.«at» i = hello_cps[i]) ∧
    (from_cstr 10 (some (cstr [0x68, 0xC3, 0xA9, 0x6C, 0x6C, 0x6F])) junk).map
      (fun s => (s.length, s.size, s.«at» 1)) = some (5, 6, 0xE9) :=
  ⟨from_cstr_spec hello_cps 10 junk (by decide) (by decide) (by decide), by decide⟩

theorem to_utf8_len_le (c : Nat) (b : Option Mem) : (to_utf8 c b).1 ≤ 4 := by
  unfold to_utf8
  split_ifs <;> simp

/-- C12: the handle built from one codepoint `c < 0x200000` has length 1, its
size is the length that `to_utf8` returns for `c` (1 to 4), the byte at
offset `size()` is zero, and `at(0)` is `c`. -/
theorem from_unicode_spec (c : Nat) (fresh : Mem) (hc : c < 0x200000) :
    (from_unicode c fresh).length = 1 ∧
    (from_unicode c fresh).size = (to_utf8 c none).1 ∧
    1 ≤ (from_unicode c fresh).size ∧ (from_unicode c fresh).size ≤ 4 ∧
    (from_unicode c fresh).is_null = false ∧
    (from_unicode c fresh)._allocated = (from_unicode c fresh).size + 1 ∧
    (∃ m, (from_unicode c fresh)._raw_ptr = some m ∧ m (from_unicode c fresh).size = 0) ∧
    (from_unicode c fresh).«at» 0 = c := by
  have hlen := encode_length c none
  have hpos := encode_length_pos c hc
  have hle := to_utf8_len_le c none
  refine ⟨rfl, rfl, ?_, hle, rfl, ?_, ⟨_, rfl, ?_⟩, ?_⟩
  · show 1 ≤ (to_utf8 c none).1
    omega
  · show size_add (to_utf8 c none).1 1 = (to_utf8 c none).1 + 1
    unfold size_add SIZE_MOD
    omega
  · show ((to_utf8 c (some fresh)).2.store (to_utf8 c none).1 0) (to_utf8 c none).1 = 0
    simp [Mem.store]
  · show (if 0 ≥ 1 then nchar else
      to_unicode ((to_utf8 c (some fresh)).2.store (to_utf8 c none).1 0) 0) = c
    rw [if_neg (by omega)]
    unfold to_unicode
    rw [utf8char_encode _ 0 c hc]
    intro k hk
    have := to_utf8_holds c fresh k hk
    rw [← this]
    unfold Mem.store
    rw [if_neg (by omega)]

/-- Construction from the codepoint `0x1F600`. -/
theorem from_unicode_spec_witness :
    (from_unicode 0x1F600 junk).length = 1 ∧
    (from_unicode 0x1F600 junk).size = (to_utf8 0x1F600 none).1 ∧
    1 ≤ (from_unicode 0x1F600 junk).size ∧ (from_unicode 0x1F600 junk).size ≤ 4 ∧
    (from_unicode 0x1F600 junk).is_null = false ∧
    (from_unicode 0x1F600 junk)._allocated = (from_unicode 0x1F600 junk).size + 1 ∧
    (∃ m, (from_unicode 0x1F600 junk)._raw_ptr = some m ∧
      m (from_unicode 0x1F600 junk).size = 0) ∧
    (from_unicode 0x1F600 junk).«at» 0 = 0x1F600 :=
  from_unicode_spec 0x1F600 junk (by decide)

/-- C13: "héllo" has size 6 and length 5; the handle assigned from it by
`operator=(const jts &)` has size 5 and capacity 6, because the byte length
is taken from `str.length()`. -/
theorem assign_size_is_length :
    (from_cstr 10 (some (cstr (utf8_bytes hello_cps))) junk).bind
      (fun s => (operator_assign 10 mk_default s junk).map
        fun t => (s.size, s.length, t.size, t._allocated, t.length)) =
      some (6, 5, 5, 6, 5) := by
  decide

/-- C16: on the null handle `set(i + 1, c)` calls `next()` on a null pointer,
`set(0, c)` returns the handle unchanged. -/
theorem set_null_handle (i c : Nat) (fresh : Mem) :
    (mk_default.set (i + 1) c fresh).isNone = true ∧
    (mk_default.set 0 c fresh).map (fun s => (s.is_null, s.length, s.size)) =
      some (true, 0, 0) :=
  ⟨rfl, rfl⟩

/-! ## Equality -/

/-- From offset `k` on, with the first zero byte of `a` at offset `n`,
`strcmp` returns 0 exactly when `b` has the bytes of `a` at the offsets
`k .. n`. -/
theorem strcmp_from_spec (a b : Mem) (n : Nat) (hz : a n = 0) (hnz : ∀ j, j < n → a j ≠ 0) :
    ∀ fuel k, k ≤ n → n - k < fuel →
      ∃ r, strcmp_from fuel a b k = some r ∧ (r = 0 ↔ ∀ j, k ≤ j → j ≤ n → b j = a j) := by
  intro fuel
  induction fuel with
  | zero => intro k _ hf; omega
  | succ f ih =>
    intro k hk hf
    unfold strcmp_from
    by_cases hne : a k ≠ b k
    · rw [if_pos hne]
      refine ⟨_, rfl, ?_⟩
      constructor
      · intro h0
        exact absurd (by omega : a k = b k) hne
      · intro hall
        exact absurd (hall k (Nat.le_refl k) hk).symm hne
    · rw [if_neg hne]
      have heq : a k = b k := not_not.mp hne
      by_cases h0 : a k = 0
      · rw [if_pos h0]
        have hkn : k = n := by
          by_contra hc
          exact hnz k (by omega) h0
        refine ⟨0, rfl, ?_⟩
        constructor
        · intro _ j hj1 hj2
          have : j = k := by omega
          rw [this]; exact heq.symm
        · intro _; rfl
      · rw [if_neg h0]
        have hlt : k < n := by
          rcases Nat.lt_or_ge k n with h | h
          · exact h
          · exact absurd (by rw [show k = n by omega]; exact hz) h0
        obtain ⟨r, hr, hiff⟩ := ih (k + 1) (by omega) (by omega)
        refine ⟨r, hr, ?_⟩
        rw [hiff]
        constructor
        · intro h j hj1 hj2
          rcases Nat.eq_or_lt_of_le hj1 with e | l
          · rw [← e]; exact heq.symm
          · exact h j (by omega) hj2
        · intro h j hj1 hj2
          exact h j (by omega) hj2

theorem operator_eq_some (fuel : Nat) (a b : jts) (ma mb : Mem) (ha : a._raw_ptr = some ma)
    (hb : b._raw_ptr = some mb) :
    operator_eq fuel a b =
      match strcmp fuel ma mb with
      | none => none
      | some r => some (decide (r = 0)) := by
  simp only [operator_eq, ha, hb]

theorem is_null_true (s : jts) (h : s.is_null = true) : s._raw_ptr = none := by
  unfold jts.is_null at h
  cases hp : s._raw_ptr with
  | none => rfl
  | some m => rw [hp] at h; exact absurd h (by simp)

theorem is_null_false (s : jts) (h : s.is_null = false) : ∃ m, s._raw_ptr = some m := by
  unfold jts.is_null at h
  cases hp : s._raw_ptr with
  | none => rw [hp] at h; exact absurd h (by simp)
  | some m => exact ⟨m, rfl⟩

theorem operator_eq_null_null (fuel : Nat) (a b : jts) (ha : a._raw_ptr = none)
    (hb : b._raw_ptr = none) : operator_eq fuel a b = some true := by
  unfold operator_eq
  rw [ha, hb]

theorem operator_eq_null_left (fuel : Nat) (a b : jts) (mb : Mem) (ha : a._raw_ptr = none)
    (hb : b._raw_ptr = some mb) : operator_eq fuel a b = some false := by
  unfold operator_eq
  rw [ha, hb]

theorem operator_eq_null_right (fuel : Nat) (a b : jts) (ma : Mem) (ha : a._raw_ptr = some ma)
    (hb : b._raw_ptr = none) : operator_eq fuel a b = some false := by
  unfold operator_eq
  rw [ha, hb]

/-- Zero-free byte lists followed by a zero byte agree up to the end of the
first exactly when they are equal. -/
theorem cstr_agree_iff (ma mb : Mem) (la lb : List Nat) (ha : holds ma 0 (la ++ [0]))
    (hb : holds mb 0 (lb ++ [0])) (hza : ∀ x ∈ la, x ≠ 0) (hzb : ∀ x ∈ lb, x ≠ 0) :
    (∀ j, j ≤ la.length → mb j = ma j) ↔ la = lb := by
  rw [holds_append] at ha hb
  have ha0 : ma la.length = 0 := by simpa using ha.2 0 (by simp)
  have hb0 : mb lb.length = 0 := by simpa using hb.2 0 (by simp)
  have hna : ∀ j, j < la.length → ma j ≠ 0 := fun j hj => by
    have := ha.1 j hj
    rw [Nat.zero_add] at this
    rw [this, List.getD_eq_getElem _ _ hj]
    exact hza _ (List.getElem_mem _)
  have hnb : ∀ j, j < lb.length → mb j ≠ 0 := fun j hj => by
    have := hb.1 j hj
    rw [Nat.zero_add] at this
    rw [this, List.getD_eq_getElem _ _ hj]
    exact hzb _ (List.getElem_mem _)
  constructor
  · intro h
    have hlen : la.length = lb.length := by
      rcases Nat.lt_trichotomy la.length lb.length with l | e | g
      · exact absurd ((h la.length (Nat.le_refl _)).trans ha0) (hnb _ l)
      · exact e
      · exact absurd ((h lb.length (Nat.le_of_lt g)).symm.trans hb0) (hna _ g)
    apply List.ext_getElem hlen
    intro j h1 h2
    have e1 := ha.1 j h1
    have e2 := hb.1 j h2
    rw [Nat.zero_add, List.getD_eq_getElem _ _ h1] at e1
    rw [Nat.zero_add, List.getD_eq_getElem _ _ h2] at e2
    rw [← e1, ← e2]
    exact (h j (Nat.le_of_lt h1)).symm
  · rintro rfl j hj
    rcases Nat.eq_or_lt_of_le hj with e | l
    · rw [e, ha0, hb0]
    · have e1 := ha.1 j l
      have e2 := hb.1 j l
      rw [Nat.zero_add] at e1 e2
      rw [e1, e2]

/-- C14 as amended: two null handles are equal, a null and a non-null handle
are unequal, and two non-null handles are equal exactly when the second
buffer has the bytes of the first up to and including the first zero byte of
the first; for two handles built from the bytes of valid codepoints that is
the case exactly when the two byte sequences are the same. -/
theorem operator_eq_cstring (fuel : Nat) :
    (∀ a b : jts, a.is_null = true → b.is_null = true → operator_eq fuel a b = some true) ∧
    (∀ a b : jts, a.is_null = true → b.is_null = false → operator_eq fuel a b = some false ∧
      operator_eq fuel b a = some false) ∧
    (∀ (a b : jts) (ma mb : Mem) (n : Nat), a._raw_ptr = some ma → b._raw_ptr = some mb →
      ma n = 0 → (∀ j, j < n → ma j ≠ 0) → n < fuel →
      ∃ r, operator_eq fuel a b = some r ∧ (r = true ↔ ∀ j, j ≤ n → mb j = ma j)) ∧
    (∀ (cpsa cpsb : List Nat) (fa fb : Mem), valid cpsa → valid cpsb →
      (utf8_bytes cpsa).length + 4 < SIZE_MOD → (utf8_bytes cpsb).length + 4 < SIZE_MOD →
      (utf8_bytes cpsa).length < fuel → (utf8_bytes cpsb).length < fuel →
      ∃ a b r, from_cstr fuel (some (cstr (utf8_bytes cpsa))) fa = some a ∧
        from_cstr fuel (some (cstr (utf8_bytes cpsb))) fb = some b ∧
        operator_eq fuel a b = some r ∧ (r = true ↔ utf8_bytes cpsa = utf8_bytes cpsb)) := by
  have key : ∀ (a b : jts) (ma mb : Mem) (n : Nat), a._raw_ptr = some ma →
      b._raw_ptr = some mb → ma n = 0 → (∀ j, j < n → ma j ≠ 0) → n < fuel →
      ∃ r, operator_eq fuel a b = some r ∧ (r = true ↔ ∀ j, j ≤ n → mb j = ma j) := by
    intro a b ma mb n ha hb hz hnz hf
    obtain ⟨r, hr, hiff⟩ := strcmp_from_spec ma mb n hz hnz fuel 0 (by omega) (by omega)
    refine ⟨decide (r = 0), ?_, ?_⟩
    · rw [operator_eq_some fuel a b ma mb ha hb]
      unfold strcmp
      rw [hr]
    · rw [decide_eq_true_iff, hiff]
      constructor
      · intro h j hj; exact h j (by omega) hj
      · intro h j _ hj; exact h j hj
  refine ⟨?_, ?_, key, ?_⟩
  · intro a b ha hb
    exact operator_eq_null_null fuel a b (is_null_true a ha) (is_null_true b hb)
  · intro a b ha hb
    obtain ⟨mb, hmb⟩ := is_null_false b hb
    exact ⟨operator_eq_null_left fuel a b mb (is_null_true a ha) hmb,
      operator_eq_null_right fuel b a mb hmb (is_null_true a ha)⟩
  · intro cpsa cpsb fa fb hva hvb hsa hsb hfa hfb
    have hma := holds_memcpy fa (cstr (utf8_bytes cpsa)) 0 _ ((utf8_bytes cpsa).length + 1)
      (holds_cstr (utf8_bytes cpsa)) (by simp)
    have hmb := holds_memcpy fb (cstr (utf8_bytes cpsb)) 0 _ ((utf8_bytes cpsb).length + 1)
      (holds_cstr (utf8_bytes cpsb)) (by simp)
    have hza := utf8_bytes_ne_zero cpsa hva
    have hzb := utf8_bytes_ne_zero cpsb hvb
    have hca := from_cstr_valid cpsa fuel fa hva hsa hfa
    have hcb := from_cstr_valid cpsb fuel fb hvb hsb hfb
    generalize memcpy fa 0 (cstr (utf8_bytes cpsa)) 0 ((utf8_bytes cpsa).length + 1) = ma at hma hca
    generalize memcpy fb 0 (cstr (utf8_bytes cpsb)) 0 ((utf8_bytes cpsb).length + 1) = mb at hmb hcb
    have hs := hma
    rw [holds_append] at hs
    have hz0 : ma (utf8_bytes cpsa).length = 0 := by simpa using hs.2 0 (by simp)
    have hnz : ∀ j, j < (utf8_bytes cpsa).length → ma j ≠ 0 := fun j hj => by
      have := hs.1 j hj
      rw [Nat.zero_add] at this
      rw [this, List.getD_eq_getElem _ _ hj]
      exact hza _ (List.getElem_mem _)
    obtain ⟨r, hr, hiff⟩ := key
      ⟨some ma, cpsa.length, (utf8_bytes cpsa).length + 1, (utf8_bytes cpsa).length⟩
      ⟨some mb, cpsb.length, (utf8_bytes cpsb).length + 1, (utf8_bytes cpsb).length⟩
      ma mb (utf8_bytes cpsa).length rfl rfl hz0 hnz hfa
    refine ⟨_, _, r, hca, hcb, hr, ?_⟩
    rw [hiff]
    exact cstr_agree_iff _ _ _ _ hma hmb hza hzb

/-- Equality of the handles built from "héllo" and "hello". -/
theorem operator_eq_cstring_witness :
    ∃ a b r, from_cstr 10 (some (cstr (utf8_bytes hello_cps))) junk = some a ∧
      from_cstr 10 (some (cstr (utf8_bytes hello_ascii))) junk = some b ∧
      operator_eq 10 a b = some r ∧ (r = true ↔ utf8_bytes hello_cps = utf8_bytes hello_ascii) :=
  (operator_eq_cstring 10).2.2.2 hello_cps hello_ascii junk junk (by decide) (by decide)
    (by decide) (by decide) (by decide) (by decide)

/-- C14 as stated fails: "abc" and "abd" after `set(1, 0)` have the same size
and differ in the byte at offset 2, and compare equal. -/
theorem operator_eq_stops_at_zero :
    ((from_cstr 10 (some (cstr [0x61, 0x62, 0x63])) junk).bind fun a0 =>
      (a0.set 1 0 junk).bind fun a =>
        (from_cstr 10 (some (cstr [0x61, 0x62, 0x64])) junk).bind fun b0 =>
          (b0.set 1 0 junk).bind fun b =>
            (operator_eq 10 a b).map fun r => (r, a.size, b.size)) = some (true, 3, 3) ∧
    ((from_cstr 10 (some (cstr [0x61, 0x62, 0x63])) junk).bind fun a0 =>
      (a0.set 1 0 junk).bind fun a => a._raw_ptr.map fun m => m 2) = some 0x63 ∧
    ((from_cstr 10 (some (cstr [0x61, 0x62, 0x64])) junk).bind fun b0 =>
      (b0.set 1 0 junk).bind fun b => b._raw_ptr.map fun m => m 2) = some 0x64 := by
  decide

/-- C15: a default-constructed handle and a handle constructed from a null
source are null with length 0 and size 0; null handles compare equal; the
handle built from the empty byte sequence is not null, has length 0 and size
0, and compares unequal to every null handle. -/
theorem null_instance (fuel : Nat) (fresh : Mem) :
    mk_default.is_null = true ∧ mk_default.length = 0 ∧ mk_default.size = 0 ∧
    (∃ s, from_cstr fuel none fresh = some s ∧ s.is_null = true ∧ s.length = 0 ∧ s.size = 0) ∧
    (∀ s t : jts, s.is_null = true → t.is_null = true → operator_eq fuel s t = some true) ∧
    (∃ e, from_cstr (fuel + 1) (some (cstr [])) fresh = some e ∧
      e.is_null = false ∧ e.length = 0 ∧ e.size = 0 ∧
      ∀ s : jts, s.is_null = true →
        operator_eq fuel s e = some false ∧ operator_eq fuel e s = some false) := by
  refine ⟨rfl, rfl, rfl, ⟨_, rfl, rfl, rfl, rfl⟩, ?_, ?_⟩
  · intro s t hs ht
    exact operator_eq_null_null fuel s t (is_null_true s hs) (is_null_true t ht)
  · have h := from_cstr_valid [] (fuel + 1) fresh (by decide) (by decide)
      (by simp [utf8_bytes])
    refine ⟨_, h, rfl, rfl, rfl, ?_⟩
    intro s hs
    exact ⟨operator_eq_null_left fuel s _ _ (is_null_true s hs) rfl,
      operator_eq_null_right fuel _ s _ rfl (is_null_true s hs)⟩

/-! ## Decoding arbitrary bytes -/

set_option maxRecDepth 100000 in
theorem lead_classes : ∀ b < 256,
    ((b &&& 0x80) = 0 ↔ b < 0x80) ∧ ((b &&& 0xe0) = 0xc0 ↔ 0xC0 ≤ b ∧ b ≤ 0xDF) ∧
    ((b &&& 0xf0) = 0xe0 ↔ 0xE0 ≤ b ∧ b ≤ 0xEF) := by
  decide

theorem and_7f (x : Nat) : (x &&& 0x7f) = x % 128 := Nat.and_pow_two_sub_one_eq_mod x 7
theorem and_1f (x : Nat) : (x &&& 0x1f) = x % 32 := Nat.and_pow_two_sub_one_eq_mod x 5
theorem and_0f (x : Nat) : (x &&& 0x0f) = x % 16 := Nat.and_pow_two_sub_one_eq_mod x 4
theorem and_07 (x : Nat) : (x &&& 0x07) = x % 8 := Nat.and_pow_two_sub_one_eq_mod x 3

/-- The value and length that `utf8char` returns, in arithmetic form. -/
theorem utf8char_arith (m : Mem) (p : Nat) :
    utf8char m p =
      if (m p &&& 0x80) = 0 then (m p % 128, 1)
      else if (m p &&& 0xe0) = 0xc0 then (m p % 32 * 64 + m (p + 1) % 64, 2)
      else if (m p &&& 0xf0) = 0xe0 then
        (m p % 16 * 4096 + m (p + 1) % 64 * 64 + m (p + 2) % 64, 3)
      else
        (m p % 8 * 262144 + m (p + 1) % 64 * 4096 + m (p + 2) % 64 * 64 + m (p + 3) % 64, 4) := by
  unfold utf8char
  simp only [and_7f, and_1f, and_0f, and_07, and_3f, shl_6, shl_12, shl_18]
  rw [or_low 6 (m p % 32 * 64) (m (p + 1) % 64) ⟨m p % 32, by omega⟩ (by omega),
    or_low 12 (m p % 16 * 4096) (m (p + 1) % 64 * 64) ⟨m p % 16, by omega⟩ (by omega),
    or_low 6 (m p % 16 * 4096 + m (p + 1) % 64 * 64) (m (p + 2) % 64)
      ⟨m p % 16 * 64 + m (p + 1) % 64, by omega⟩ (by omega),
    or_low 18 (m p % 8 * 262144) (m (p + 1) % 64 * 4096) ⟨m p % 8, by omega⟩ (by omega),
    or_low 12 (m p % 8 * 262144 + m (p + 1) % 64 * 4096) (m (p + 2) % 64 * 64)
      ⟨m p % 8 * 64 + m (p + 1) % 64, by omega⟩ (by omega),
    or_low 6 (m p % 8 * 262144 + m (p + 1) % 64 * 4096 + m (p + 2) % 64 * 64) (m (p + 3) % 64)
      ⟨m p % 8 * 4096 + m (p + 1) % 64 * 64 + m (p + 2) % 64, by omega⟩ (by omega)]

/-- C17: for a byte `b = m p`, `utf8char` returns length 1 iff `b < 0x80`,
2 iff `b` is in `0xC0..0xDF`, 3 iff `b` is in `0xE0..0xEF`, and 4 for every
other byte; the value is made of the low 7, 5, 4 or 3 bits of `b` and the low
6 bits of each following byte, whatever they are, and is below `0x200000`. -/
theorem utf8char_classify (m : Mem) (p : Nat) (hb : m p < 256) :
    ((utf8char m p).2 = 1 ↔ m p < 0x80) ∧
    ((utf8char m p).2 = 2 ↔ 0xC0 ≤ m p ∧ m p ≤ 0xDF) ∧
    ((utf8char m p).2 = 3 ↔ 0xE0 ≤ m p ∧ m p ≤ 0xEF) ∧
    ((utf8char m p).2 = 4 ↔ (0x80 ≤ m p ∧ m p ≤ 0xBF) ∨ 0xF0 ≤ m p) ∧
    (m p < 0x80 → (utf8char m p).1 = m p % 128) ∧
    (0xC0 ≤ m p → m p ≤ 0xDF → (utf8char m p).1 = m p % 32 * 64 + m (p + 1) % 64) ∧
    (0xE0 ≤ m p → m p ≤ 0xEF →
      (utf8char m p).1 = m p % 16 * 4096 + m (p + 1) % 64 * 64 + m (p + 2) % 64) ∧
    ((0x80 ≤ m p ∧ m p ≤ 0xBF) ∨ 0xF0 ≤ m p →
      (utf8char m p).1 =
        m p % 8 * 262144 + m (p + 1) % 64 * 4096 + m (p + 2) % 64 * 64 + m (p + 3) % 64) ∧
    (utf8char m p).1 < 0x200000 := by
  obtain ⟨c1, c2, c3⟩ := lead_classes (m p) hb
  rw [utf8char_arith]
  by_cases h1 : (m p &&& 0x80) = 0
  · have := c1.mp h1
    simp only [if_pos h1]
    refine ⟨?_, ?_, ?_, ?_, ?_, ?_, ?_, ?_, ?_⟩ <;> dsimp only <;> intros <;>
          first | omega | trivial | (simp only [true_iff]; omega)
  · have n1 : ¬ m p < 0x80 := fun h => h1 (c1.mpr h)
    by_cases h2 : (m p &&& 0xe0) = 0xc0
    · have := c2.mp h2
      simp only [if_neg h1, if_pos h2]
      refine ⟨?_, ?_, ?_, ?_, ?_, ?_, ?_, ?_, ?_⟩ <;> dsimp only <;> intros <;>
          first | omega | trivial | (simp only [true_iff]; omega)
    · have n2 : ¬ (0xC0 ≤ m p ∧ m p ≤ 0xDF) := fun h => h2 (c2.mpr h)
      by_cases h3 : (m p &&& 0xf0) = 0xe0
      · have := c3.mp h3
        simp only [if_neg h1, if_neg h2, if_pos h3]
        refine ⟨?_, ?_, ?_, ?_, ?_, ?_, ?_, ?_, ?_⟩ <;> dsimp only <;> intros <;>
          first | omega | trivial | (simp only [true_iff]; omega)
      · have n3 : ¬ (0xE0 ≤ m p ∧ m p ≤ 0xEF) := fun h => h3 (c3.mpr h)
        simp only [if_neg h1, if_neg h2, if_neg h3]
        refine ⟨?_, ?_, ?_, ?_, ?_, ?_, ?_, ?_, ?_⟩ <;> dsimp only <;> intros <;>
          first | omega | trivial | (simp only [true_iff]; omega)

/-- Decoding at the malformed lead byte `0xBF` followed by `0xAA` bytes. -/
theorem utf8char_classify_witness :
    ((utf8char (junk.store 0 0xBF) 0).2 = 1 ↔ (junk.store 0 0xBF) 0 < 0x80) ∧
    ((utf8char (junk.store 0 0xBF) 0).2 = 2 ↔
      0xC0 ≤ (junk.store 0 0xBF) 0 ∧ (junk.store 0 0xBF) 0 ≤ 0xDF) ∧
    ((utf8char (junk.store 0 0xBF) 0).2 = 3 ↔
      0xE0 ≤ (junk.store 0 0xBF) 0 ∧ (junk.store 0 0xBF) 0 ≤ 0xEF) ∧
    ((utf8char (junk.store 0 0xBF) 0).2 = 4 ↔
      (0x80 ≤ (junk.store 0 0xBF) 0 ∧ (junk.store 0 0xBF) 0 ≤ 0xBF) ∨
        0xF0 ≤ (junk.store 0 0xBF) 0) ∧
    ((junk.store 0 0xBF) 0 < 0x80 →
      (utf8char (junk.store 0 0xBF) 0).1 = (junk.store 0 0xBF) 0 % 128) ∧
    (0xC0 ≤ (junk.store 0 0xBF) 0 → (junk.store 0 0xBF) 0 ≤ 0xDF →
      (utf8char (junk.store 0 0xBF) 0).1 =
        (junk.store 0 0xBF) 0 % 32 * 64 + (junk.store 0 0xBF) (0 + 1) % 64) ∧
    (0xE0 ≤ (junk.store 0 0xBF) 0 → (junk.store 0 0xBF) 0 ≤ 0xEF →
      (utf8char (junk.store 0 0xBF) 0).1 =
        (junk.store 0 0xBF) 0 % 16 * 4096 + (junk.store 0 0xBF) (0 + 1) % 64 * 64 +
          (junk.store 0 0xBF) (0 + 2) % 64) ∧
    ((0x80 ≤ (junk.store 0 0xBF) 0 ∧ (junk.store 0 0xBF) 0 ≤ 0xBF) ∨
        0xF0 ≤ (junk.store 0 0xBF) 0 →
      (utf8char (junk.store 0 0xBF) 0).1 =
        (junk.store 0 0xBF) 0 % 8 * 262144 + (junk.store 0 0xBF) (0 + 1) % 64 * 4096 +
          (junk.store 0 0xBF) (0 + 2) % 64 * 64 + (junk.store 0 0xBF) (0 + 3) % 64) ∧
    (utf8char (junk.store 0 0xBF) 0).1 < 0x200000 :=
  utf8char_classify (junk.store 0 0xBF) 0 (by decide)

/-! ## Stepping forward and backward over codepoint boundaries -/

theorem next_n_from_offset (m : Mem) (cps : List Nat) (hall : encodable cps)
    (h : holds m 0 (utf8_bytes cps)) :
    ∀ d i, i + d ≤ cps.length → next_n m d (offset_of cps i) = offset_of cps (i + d) := by
  intro d
  induction d with
  | zero => intro i _; rfl
  | succ k ih =>
    intro i hi
    rw [next_n, next_offset m cps hall i (by omega) h, ih (i + 1) (by omega)]
    congr 1; omega

theorem prev_n_from_offset (m : Mem) (cps : List Nat) (hall : encodable cps)
    (h : holds m 0 (utf8_bytes cps)) (i : Nat) :
    ∀ d, i + d ≤ cps.length → prev_n m d (offset_of cps (i + d)) = some (offset_of cps i) := by
  intro d
  induction d with
  | zero => intro _; rfl
  | succ k ih =>
    intro hi
    have hp := prev_offset m cps hall (i + k) (by omega) h
    rw [show i + k + 1 = i + (k + 1) by omega] at hp
    rw [prev_n]
    simp only [hp]
    exact ih (by omega)

theorem offset_of_zero (cps : List Nat) : offset_of cps 0 = 0 := rfl

theorem offset_of_length (cps : List Nat) : offset_of cps cps.length = (utf8_bytes cps).length := by
  unfold offset_of
  rw [List.take_length]

/-- C18: in a region that contains the encodings of codepoints below
`0x200000` followed by a zero byte, with `offset_of cps i` the boundary in
front of codepoint `i` (0 for `i = 0`, the byte count for `i = length`):
`next` leads from a boundary below the byte count to the following one,
`prev` leads from a boundary above 0 to the preceding one, so
`prev(next(p)) == p` and `next(prev(q)) == q`, and `traverse` by `n` followed
by `traverse` by `-n` returns to the start when the steps stay inside. -/
theorem prev_next_inverse (cps : List Nat) (m : Mem) (hall : encodable cps)
    (h : holds m 0 (utf8_bytes cps ++ [0])) :
    offset_of cps 0 = 0 ∧ offset_of cps cps.length = (utf8_bytes cps).length ∧
    (∀ i, i < cps.length →
      offset_of cps i < offset_of cps (i + 1) ∧
      next m (offset_of cps i) = offset_of cps (i + 1) ∧
      prev m (offset_of cps (i + 1)) = some (offset_of cps i) ∧
      prev m (next m (offset_of cps i)) = some (offset_of cps i) ∧
      (prev m (offset_of cps (i + 1))).map (next m) = some (offset_of cps (i + 1))) ∧
    (∀ (i : Nat) (n : Int), i ≤ cps.length → 0 ≤ (i : Int) + n → (i : Int) + n ≤ cps.length →
      jts_element.traverse m (offset_of cps i) n = some (offset_of cps ((i : Int) + n).toNat) ∧
      (jts_element.traverse m (offset_of cps i) n).bind
        (fun q => jts_element.traverse m q (-n)) = some (offset_of cps i)) := by
  rw [holds_append] at h
  have hh := h.1
  have fwd : ∀ (i d : Nat), i + d ≤ cps.length →
      jts_element.traverse m (offset_of cps i) (d : Int) = some (offset_of cps (i + d)) := by
    intro i d hd
    rw [traverse_nat, next_n_from_offset m cps hall hh d i hd]
  have bwd : ∀ (i d : Nat), i + d ≤ cps.length →
      jts_element.traverse m (offset_of cps (i + d)) (-(d : Int)) = some (offset_of cps i) := by
    intro i d hd
    unfold jts_element.traverse
    rw [if_neg (by omega)]
    have : (- -(d : Int)).toNat = d := by omega
    rw [this]
    exact prev_n_from_offset m cps hall hh i d hd
  refine ⟨offset_of_zero cps, offset_of_length cps, ?_, ?_⟩
  · intro i hi
    have hn := next_offset m cps hall i hi hh
    have hp := prev_offset m cps hall i hi hh
    refine ⟨offset_of_lt cps hall i 0 (by omega), hn, hp, ?_, ?_⟩
    · rw [hn, hp]
    · rw [hp, Option.map_some', hn]
  · intro i n hi h0 h1
    rcases Int.le_total 0 n with hn | hn
    · obtain ⟨d, rfl⟩ := Int.eq_ofNat_of_zero_le hn
      have hd : i + d ≤ cps.length := by omega
      have e : ((i : Int) + (d : Int)).toNat = i + d := by omega
      rw [e, fwd i d hd]
      refine ⟨rfl, ?_⟩
      rw [Option.some_bind]
      exact bwd i d hd
    · obtain ⟨d, hd⟩ := Int.eq_ofNat_of_zero_le (by omega : 0 ≤ -n)
      have hn' : n = -(d : Int) := by omega
      subst hn'
      obtain ⟨j, rfl⟩ : ∃ j, i = j + d := ⟨i - d, by omega⟩
      have e : (((j + d : Nat) : Int) + -(d : Int)).toNat = j := by omega
      rw [e, bwd j d hi]
      refine ⟨rfl, ?_⟩
      rw [Option.some_bind, neg_neg]
      exact fwd j d hi

/-- The boundaries of "héllo" followed by a zero byte. -/
theorem prev_next_inverse_witness :
    offset_of hello_cps 0 = 0 ∧
    offset_of hello_cps hello_cps.length = (utf8_bytes hello_cps).length ∧
    (∀ i, i < hello_cps.length →
      offset_of hello_cps i < offset_of hello_cps (i + 1) ∧
      next (cstr (utf8_bytes hello_cps)) (offset_of hello_cps i) = offset_of hello_cps (i + 1) ∧
      prev (cstr (utf8_bytes hello_cps)) (offset_of hello_cps (i + 1)) =
        some (offset_of hello_cps i) ∧
      prev (cstr (utf8_bytes hello_cps)) (next (cstr (utf8_bytes hello_cps))
        (offset_of hello_cps i)) = some (offset_of hello_cps i) ∧
      (prev (cstr (utf8_bytes hello_cps)) (offset_of hello_cps (i + 1))).map
        (next (cstr (utf8_bytes hello_cps))) = some (offset_of hello_cps (i + 1))) ∧
    (∀ (i : Nat) (n : Int), i ≤ hello_cps.length → 0 ≤ (i : Int) + n →
      (i : Int) + n ≤ hello_cps.length →
      jts_element.traverse (cstr (utf8_bytes hello_cps)) (offset_of hello_cps i) n =
        some (offset_of hello_cps ((i : Int) + n).toNat) ∧
      (jts_element.traverse (cstr (utf8_bytes hello_cps)) (offset_of hello_cps i) n).bind
        (fun q => jts_element.traverse (cstr (utf8_bytes hello_cps)) q (-n)) =
          some (offset_of hello_cps i)) :=
  prev_next_inverse hello_cps (cstr (utf8_bytes hello_cps))
    (encodable_of_valid (show valid hello_cps by decide)) (holds_cstr (utf8_bytes hello_cps))

/-! ## Capacity -/

theorem utf8char_len_pos (m : Mem) (p : Nat) : 1 ≤ (utf8char m p).2 := by
  unfold utf8char
  split_ifs <;> simp

/-- In the wider case on a buffer with capacity `_raw_length + 1` the test
`new_len + 1 > _allocated` succeeds. -/
theorem wider_realloc_test (raw alloc len len2 : Nat) (hcap : alloc = size_add raw 1)
    (hsz : raw + 4 < SIZE_MOD) (hlen : len ≤ 4) (hl2 : 1 ≤ len2) (hw : len2 < len) :
    size_add (size_sub (size_add raw len) len2) 1 > alloc ∧
    size_add (size_sub (size_add raw len) len2) 1 =
      size_add (size_add raw (size_sub len len2)) 1 := by
  subst hcap
  have hM : SIZE_MOD = 18446744073709551616 := rfl
  rw [size_add_eq raw 1 (by omega), size_add_eq raw len (by omega),
    size_sub_eq (raw + len) len2 (by omega) (by omega),
    size_add_eq (raw + len - len2) 1 (by omega), size_sub_eq len len2 (by omega) (by omega),
    size_add_eq raw (len - len2) (by omega), size_add_eq (raw + (len - len2)) 1 (by omega)]
  omega

theorem replace_ptr_cap (s : jts) (ptr : Option Nat) (value : Nat) (fresh : Mem)
    (hsz : s._raw_length + 4 < SIZE_MOD)
    (h : s._raw_ptr ≠ none → s._allocated = size_add s._raw_length 1) :
    (replace_ptr s ptr value fresh)._raw_ptr ≠ none →
      (replace_ptr s ptr value fresh)._allocated =
        size_add (replace_ptr s ptr value fresh)._raw_length 1 := by
  unfold replace_ptr
  split
  · rename_i p m hp hm
    have hcap := h (by rw [hm]; simp)
    have hlen := to_utf8_len_le value (some scratch)
    dsimp only
    split_ifs with e1 e2 e3
    · intro _; exact hcap
    · intro _; exact hcap
    · intro _
      exact (wider_realloc_test _ _ _ _ hcap hsz hlen (utf8char_len_pos _ _) (by omega)).2
    · exfalso
      exact e3 (wider_realloc_test _ _ _ _ hcap hsz hlen (utf8char_len_pos _ _) (by omega)).1
  · exact h

theorem from_cstr_cap (fuel : Nat) (source : Option Mem) (fresh : Mem) (s : jts)
    (h : from_cstr fuel source fresh = some s) :
    s._raw_ptr ≠ none → s._allocated = size_add s._raw_length 1 := by
  unfold from_cstr strcpy at h
  cases source with
  | none =>
    simp only [Option.some.injEq] at h
    subst h
    intro hn; exact absurd rfl hn
  | some src =>
    simp only at h
    cases h1 : strlen fuel src with
    | none => rw [h1] at h; simp at h
    | some n =>
      rw [h1] at h
      simp only at h
      cases h2 : utf8len fuel (memcpy fresh 0 src 0 (n + 1)) 0 with
      | none => rw [h2] at h; simp at h
      | some l =>
        rw [h2] at h
        simp only [Option.some.injEq] at h
        subst h
        intro _; rfl

theorem assign_cstr_cap (fuel : Nat) (t : jts) (str : Option Mem) (fresh : Mem) (s : jts)
    (h : operator_assign_cstr fuel t str fresh = some s) :
    s._raw_ptr ≠ none → s._allocated = size_add s._raw_length 1 :=
  from_cstr_cap fuel str fresh s h

theorem from_string_cap (fuel : Nat) (source : List Nat) (fresh : Mem) (s : jts)
    (h : from_string fuel source fresh = some s) :
    s._raw_ptr ≠ none → s._allocated = size_add s._raw_length 1 := by
  unfold from_string at h
  cases h1 : strcpy fuel fresh 0 (cstr source) with
  | none => rw [h1] at h; simp at h
  | some raw =>
    rw [h1] at h
    simp only at h
    cases h2 : utf8len fuel raw 0 with
    | none => rw [h2] at h; simp at h
    | some l =>
      rw [h2] at h
      simp only [Option.some.injEq] at h
      subst h
      intro _; rfl

theorem assign_cap (fuel : Nat) (t str : jts) (fresh : Mem) (s : jts)
    (h : operator_assign fuel t str fresh = some s) :
    s._raw_ptr ≠ none → s._allocated = size_add s._raw_length 1 := by
  unfold operator_assign jts.c_str at h
  cases h0 : str._raw_ptr with
  | none => rw [h0] at h; simp at h
  | some src =>
    rw [h0] at h
    simp only at h
    cases h1 : strcpy fuel fresh 0 src with
    | none => rw [h1] at h; simp at h
    | some raw =>
      rw [h1] at h
      simp only [Option.some.injEq] at h
      subst h
      intro _; rfl

theorem set_cap (s : jts) (i c : Nat) (fresh : Mem) (s2 : jts)
    (hsz : s._raw_length + 4 < SIZE_MOD)
    (h : s._raw_ptr ≠ none → s._allocated = size_add s._raw_length 1)
    (hset : jts.set s i c fresh = some s2) :
    s2._raw_ptr ≠ none → s2._allocated = size_add s2._raw_length 1 := by
  unfold jts.set at hset
  cases hp : s._raw_ptr with
  | none =>
    rw [hp] at hset
    simp only at hset
    split_ifs at hset
    simp only [Option.some.injEq] at hset
    subst hset
    exact replace_ptr_cap s none c fresh hsz h
  | some m =>
    rw [hp] at hset
    simp only [Option.some.injEq] at hset
    subst hset
    exact replace_ptr_cap s _ c fresh hsz h

theorem reachable_cap (s : jts) (h : reachable s) :
    s._raw_ptr ≠ none → s._allocated = size_add s._raw_length 1 := by
  induction h with
  | default => intro hn; exact absurd rfl hn
  | cstr fuel source fresh s h => exact from_cstr_cap fuel source fresh s h
  | string fuel source fresh s h => exact from_string_cap fuel source fresh s h
  | unicode c fresh => intro _; rfl
  | assign fuel t str fresh s _ _ h _ _ => exact assign_cap fuel t str fresh s h
  | assign_cstr fuel t str fresh s _ h _ => exact assign_cstr_cap fuel t str fresh s h
  | assign_string fuel t str fresh s _ h _ =>
    exact assign_cstr_cap fuel t (some (cstr str)) fresh s h
  | set s i c fresh s2 _ _ hsz hset ih => exact set_cap s i c fresh s2 hsz ih hset

/-- C20: every non-null handle reachable from a constructor by assignments
and in-range `set` calls has `_allocated == _raw_length + 1`; hence on such a
handle, when the replacement is wider than the codepoint replaced, the test
`new_len + 1 > _allocated` succeeds and `replace_ptr` returns the handle of
the reallocating path, built on the new block. -/
theorem capacity_invariant (s : jts) (h : reachable s) :
    (s.is_null = false →
      s._allocated = size_add s._raw_length 1 ∧
      (s._raw_length + 1 < SIZE_MOD → s._allocated = s._raw_length + 1)) ∧
    (∀ (m : Mem) (p value : Nat) (fresh : Mem), s._raw_ptr = some m →
      s._raw_length + 4 < SIZE_MOD →
      (utf8char m p).2 < (to_utf8 value (some scratch)).1 →
      size_add (size_sub (size_add s._raw_length (to_utf8 value (some scratch)).1)
        (utf8char m p).2) 1 > s._allocated ∧
      replace_ptr s (some p) value fresh =
        { _raw_ptr := some (memcpy
            (memmove (memcpy fresh 0 m 0 s._raw_length)
              (p + (to_utf8 value (some scratch)).1) (p + (utf8char m p).2)
              (size_sub s._raw_length p))
            p (to_utf8 value (some scratch)).2 0 (to_utf8 value (some scratch)).1)
          _length := s._length
          _allocated := size_add (size_sub (size_add s._raw_length
            (to_utf8 value (some scratch)).1) (utf8char m p).2) 1
          _raw_length := size_add s._raw_length
            (size_sub (to_utf8 value (some scratch)).1 (utf8char m p).2) }) := by
  have hcap := reachable_cap s h
  refine ⟨fun hn => ?_, ?_⟩
  · obtain ⟨m, hm⟩ := is_null_false s hn
    have := hcap (by rw [hm]; simp)
    refine ⟨this, fun hlt => ?_⟩
    rw [this]
    exact size_add_eq _ 1 hlt
  · intro m p value fresh hm hsz hw
    have hc := hcap (by rw [hm]; simp)
    have ht := (wider_realloc_test s._raw_length s._allocated _ _ hc hsz
      (to_utf8_len_le value (some scratch)) (utf8char_len_pos m p) hw).1
    refine ⟨ht, ?_⟩
    unfold replace_ptr
    rw [hm]
    dsimp only
    rw [if_neg (by omega), if_neg (by omega), if_pos ht]

/-- The capacity of the handle built from the codepoint `A`. -/
theorem capacity_invariant_witness :
    ((from_unicode 0x41 junk).is_null = false →
      (from_unicode 0x41 junk)._allocated = size_add (from_unicode 0x41 junk)._raw_length 1 ∧
      ((from_unicode 0x41 junk)._raw_length + 1 < SIZE_MOD →
        (from_unicode 0x41 junk)._allocated = (from_unicode 0x41 junk)._raw_length + 1)) ∧
    (∀ (m : Mem) (p value : Nat) (fresh : Mem), (from_unicode 0x41 junk)._raw_ptr = some m →
      (from_unicode 0x41 junk)._raw_length + 4 < SIZE_MOD →
      (utf8char m p).2 < (to_utf8 value (some scratch)).1 →
      size_add (size_sub (size_add (from_unicode 0x41 junk)._raw_length
        (to_utf8 value (some scratch)).1) (utf8char m p).2) 1 >
          (from_unicode 0x41 junk)._allocated ∧
      replace_ptr (from_unicode 0x41 junk) (some p) value fresh =
        { _raw_ptr := some (memcpy
            (memmove (memcpy fresh 0 m 0 (from_unicode 0x41 junk)._raw_length)
              (p + (to_utf8 value (some scratch)).1) (p + (utf8char m p).2)
              (size_sub (from_unicode 0x41 junk)._raw_length p))
            p (to_utf8 value (some scratch)).2 0 (to_utf8 value (some scratch)).1)
          _length := (from_unicode 0x41 junk)._length
          _allocated := size_add (size_sub (size_add (from_unicode 0x41 junk)._raw_length
            (to_utf8 value (some scratch)).1) (utf8char m p).2) 1
          _raw_length := size_add (from_unicode 0x41 junk)._raw_length
            (size_sub (to_utf8 value (some scratch)).1 (utf8char m p).2) }) :=
  capacity_invariant (from_unicode 0x41 junk) (reachable.unicode 0x41 junk)

/-! ## Accesses behind the end of a block -/

/-- C3: in "héllo" (a block of 7 bytes) `set(1, 'e')` takes the narrower
branch with offset 1, old width 2, new width 1 and moves 5 bytes from offset
3, which reads offset 7; `set(1, 0x1F600)` takes the wider branch and writes
behind its new block.  The equal-width `set(1, 0xE8)` and the replacement of
the one-byte `h` by `set(0, 0x1F600)` stay inside. -/
theorem set_reads_behind_block :
    ((from_cstr 10 (some (cstr (utf8_bytes hello_cps))) junk).bind fun s =>
      s._raw_ptr.map fun m =>
        (s._allocated, next_n m 1 0, (utf8char m (next_n m 1 0)).2,
          (to_utf8 0x65 (some scratch)).1, size_sub s._raw_length (next_n m 1 0))) =
      some (7, 1, 2, 1, 5) ∧
    behind 7 (1 + 2) 5 = true ∧
    (from_cstr 10 (some (cstr (utf8_bytes hello_cps))) junk).map
      (fun s => (s.set_overrun 1 0x65, s.set_overrun 1 0x1F600)) = some (true, true) ∧
    (from_cstr 10 (some (cstr (utf8_bytes hello_cps))) junk).map
      (fun s => (s.set_overrun 1 0xE8, s.set_overrun 0 0x1F600)) = some (false, false) := by
  decide

/-- C6: in "€a" (a block of 5 bytes) `set(0, 0xE9)` replaces the three-byte
`€` by a two-byte codepoint and moves 4 bytes to offset 2, which writes
offset 5.  In "hello" `set(0, 0x1F600)` stays inside its blocks and `at(2)`
is still `l`. -/
theorem set_writes_behind_block :
    ((from_cstr 10 (some (cstr (utf8_bytes [0x20AC, 0x61]))) junk).bind fun s =>
      s._raw_ptr.map fun m =>
        (s._allocated, next_n m 0 0, (utf8char m (next_n m 0 0)).2,
          (to_utf8 0xE9 (some scratch)).1, size_sub s._raw_length (next_n m 0 0))) =
      some (5, 0, 3, 2, 4) ∧
    behind 5 (0 + 2) 4 = true ∧
    (from_cstr 10 (some (cstr (utf8_bytes [0x20AC, 0x61]))) junk).map
      (fun s => s.set_overrun 0 0xE9) = some true ∧
    (from_cstr 10 (some (cstr (utf8_bytes hello_ascii))) junk).bind
      (fun s => (s.set 0 0x1F600 junk).map fun s2 => (s.set_overrun 0 0x1F600, s2.«at» 2)) =
      some (false, 0x6C) := by
  decide

/-- C19: in "héllo" (a block of 7 bytes) `set(1, 0x200000)` takes the narrower
branch with new width 0 and old width 2 and moves 5 bytes from offset 3, which
reads offset 7.  Removing the one-byte `h` by `set(0, 0x200000)` stays
inside. -/
theorem set_unencodable_reads_behind_block :
    ((from_cstr 10 (some (cstr (utf8_bytes hello_cps))) junk).bind fun s =>
      s._raw_ptr.map fun m =>
        (s._allocated, next_n m 1 0, (utf8char m (next_n m 1 0)).2,
          (to_utf8 0x200000 (some scratch)).1, size_sub s._raw_length (next_n m 1 0))) =
      some (7, 1, 2, 0, 5) ∧
    behind 7 (1 + 2) 5 = true ∧
    (from_cstr 10 (some (cstr (utf8_bytes hello_cps))) junk).map
      (fun s => (s.set_overrun 1 0x200000, s.set_overrun 0 0x200000)) = some (true, false) := by
  decide

/-- C8: for "héllo" + "hello" the temporary block has `len = 11` bytes;
`strcpy` writes 7 bytes at offset 0 and `strcat` writes 6 bytes at offset 6,
the last of them at offset 11.  The handle built from the temporary has size
11 and length 10. -/
theorem operator_plus_writes_behind_block :
    ((from_cstr 10 (some (cstr (utf8_bytes hello_cps))) junk).bind fun a =>
      (from_cstr 10 (some (cstr (utf8_bytes hello_ascii))) junk).bind fun b =>
        (operator_plus 20 a b junk junk).map fun r =>
          (size_add a._raw_length b._raw_length, r.1.size, r.1.length, r.2)) =
      some (11, 11, 10, true) ∧
    behind 11 0 (6 + 1) = false ∧ behind 11 6 (5 + 1) = true := by
  decide

/-! ## Cursor offsets beyond the range of `int` -/

theorem encode_ascii (c : Nat) (h : c < 0x80) : encode c = [c] := by
  rw [encode_eq, if_pos h]

theorem utf8_bytes_replicate_length (n : Nat) :
    (utf8_bytes (List.replicate n 0x61)).length = n := by
  induction n with
  | zero => rfl
  | succ k ih =>
    rw [List.replicate_succ, utf8_bytes, List.length_append, ih, encode_ascii 0x61 (by omega)]
    simp; omega

theorem valid_replicate (n : Nat) : valid (List.replicate n 0x61) := by
  intro c hc
  rw [List.eq_of_mem_replicate hc]
  omega

theorem to_int_two_pow_31 : to_int 2147483648 = -2147483648 := by
  unfold to_int; omega

theorem prev_n_succ_zero (m : Mem) (k : Nat) : prev_n m (k + 1) 0 = none := rfl

/-- The cursor `begin() + 2147483648`: the offset becomes the `int`
`-2147483648`, and the first `prev()` leaves the region at its start. -/
theorem plus_two_pow_31 (m : Mem) :
    iterator.plus ⟨some (m, 0)⟩ 2147483648 = none := by
  rw [plus_eq, to_int_two_pow_31]
  unfold jts_element.traverse
  rw [if_neg (by omega)]
  have : (- (-2147483648 : Int)).toNat = 2147483647 + 1 := by omega
  rw [this, prev_n_succ_zero]

/-- The handle built from a string of `n` letters `a`. -/
theorem from_cstr_replicate (n : Nat) (hn : n + 4 < SIZE_MOD) :
    from_cstr (n + 1) (some (cstr (utf8_bytes (List.replicate n 0x61)))) junk =
      some ⟨some (memcpy junk 0 (cstr (utf8_bytes (List.replicate n 0x61))) 0 (n + 1)),
        n, n + 1, n⟩ := by
  have h := from_cstr_valid (List.replicate n 0x61) (n + 1) junk (valid_replicate n)
    (by rw [utf8_bytes_replicate_length]; exact hn)
    (by rw [utf8_bytes_replicate_length]; omega)
  rw [utf8_bytes_replicate_length, List.length_replicate] at h
  exact h

/-- C9 as stated fails: the handle built from 2147483649 letters `a` has
length 2147483649, and for the index `i = 2147483648` below it the cursor
`begin() + i` is not computed, so it dereferences to nothing. -/
theorem cursor_plus_narrows_offset :
    ∃ s, from_cstr 2147483650
        (some (cstr (utf8_bytes (List.replicate 2147483649 0x61)))) junk = some s ∧
      2147483648 < s.length ∧
      s.begin.plus 2147483648 = none ∧
      ¬ ∃ it, s.begin.plus 2147483648 = some it ∧ it.deref = some (s.«at» 2147483648) := by
  have hM : SIZE_MOD = 18446744073709551616 := rfl
  have hp : ∀ m n a r, (jts.mk (some m) n a r).begin.plus 2147483648 = none := by
    intro m n a r
    rw [begin_some]
    exact plus_two_pow_31 m
  refine ⟨_, from_cstr_replicate 2147483649 (by omega), ?_, hp _ _ _ _, ?_⟩
  · show 2147483648 < 2147483649
    omega
  · rintro ⟨it, h, -⟩
    rw [hp] at h
    exact absurd h (by simp)

/-- C10 as stated fails: the handle built from 2147483648 letters `a` has
length 2147483648, and for `i = 2147483648` the cursor `begin() + i` is not
computed, so `(begin() + i) - begin()` has no value. -/
theorem cursor_plus_minus_narrows_offset :
    ∃ s, from_cstr 2147483649
        (some (cstr (utf8_bytes (List.replicate 2147483648 0x61)))) junk = some s ∧
      2147483648 ≤ s.length ∧
      ∀ fuel2, ¬ ∃ it, s.begin.plus 2147483648 = some it ∧
        iterator.minus fuel2 it s.begin = some 2147483648 := by
  have hM : SIZE_MOD = 18446744073709551616 := rfl
  have hp : ∀ m n a r, (jts.mk (some m) n a r).begin.plus 2147483648 = none := by
    intro m n a r
    rw [begin_some]
    exact plus_two_pow_31 m
  refine ⟨_, from_cstr_replicate 2147483648 (by omega), ?_, ?_⟩
  · show 2147483648 ≤ 2147483648
    omega
  · rintro fuel2 ⟨it, h, -⟩
    rw [hp] at h
    exact absurd h (by simp)
